import Mathlib

/-!
# Trigger matching of `action-check-workflows`

A shallow embedding of `internal/detector` (files `matching.go`, `util.go`,
`context.go`, `detector.go`): the functions that decide whether one workflow
event declaration fires for an event context and a list of changed files, the
normalisation of raw declarations and of changed files, and the loop that
collects the matching workflows.

Go strings are embedded as Lean `String`s (sequences of Unicode code points,
i.e. valid UTF-8 text).  What the package takes from outside is a parameter
of the embedding:

* `glob`  : `doublestar.Match(pattern, name)`; `some b` stands for the result
  `(b, nil)` and `none` for a non-nil error (`ErrBadPattern`);
* `fold`  : `strings.EqualFold(s, t)`;
* `lower` : `strings.ToLower(s)`;
* `sep`   : `os.PathSeparator`, which `filepath.ToSlash` replaces by `/`;
* `fmtOther` : `fmt.Sprint` on `nil`, slices and maps;
* `base`  : `filepath.Base(path)`;
* `readWorkflow` : the YAML reader `model.ReadWorkflow`;
* `walk`  : what the directory walk of `loadWorkflowDefinitions` meets;
* `jsonUnmarshal` : `json.Unmarshal` into a `[]string`, used by
  `parseModifiedFiles` of `cmd/action/main.go`.
-/

namespace Detector

/-! ## Library functions of the Go runtime -/

/-- Result of `doublestar.Match`: `none` is a malformed pattern. -/
abbrev GlobMatch := String → String → Option Bool

/-- Signature of `strings.EqualFold`. -/
abbrev FoldEq := String → String → Bool

/-- White space as `unicode.IsSpace` defines it. -/
def isSpace (c : Char) : Bool :=
  let n := c.toNat
  n == 0x09 || n == 0x0A || n == 0x0B || n == 0x0C || n == 0x0D || n == 0x20 ||
  n == 0x85 || n == 0xA0 || n == 0x1680 || (0x2000 ≤ n && n ≤ 0x200A) ||
  n == 0x2028 || n == 0x2029 || n == 0x202F || n == 0x205F || n == 0x3000

/-- Removal of trailing white space from a character list. -/
def trimRight (cs : List Char) : List Char :=
  (cs.reverse.dropWhile isSpace).reverse

/-- Go `strings.TrimSpace`: leading and trailing white space removed. -/
def trimSpace (s : String) : String :=
  ⟨trimRight (s.data.dropWhile isSpace)⟩

/-- Go `strings.HasPrefix(s, pre)`. -/
def hasPrefix (s pre : String) : Bool :=
  pre.data.isPrefixOf s.data

/-- Go `strings.TrimPrefix(s, pre)`. -/
def trimPrefix (s pre : String) : String :=
  if hasPrefix s pre then ⟨s.data.drop pre.data.length⟩ else s

/-- Go `filepath.ToSlash` for a platform whose path separator is `sep`. -/
def toSlash (sep : Char) (s : String) : String :=
  if sep == '/' then s else ⟨s.data.map (fun c => if c == sep then '/' else c)⟩

/-! ## `context.go` -/

/-- The event context of `context.go`. -/
structure EventContext where
  Name : String
  Action : String
  Ref : String
  BaseRef : String
  HeadRef : String
  DefaultBranch : String
  deriving DecidableEq

/-! ## `util.go` -/

/-- The loop `for strings.HasPrefix(norm, "./") { norm = strings.TrimPrefix(norm, "./") }`. -/
def stripDotSlash : List Char → List Char
  | c :: d :: rest => if c = '.' ∧ d = '/' then stripDotSlash rest else c :: d :: rest
  | cs => cs

/-- The loop `for strings.HasPrefix(norm, "/") { norm = strings.TrimPrefix(norm, "/") }`. -/
def stripSlash : List Char → List Char
  | c :: rest => if c = '/' then stripSlash rest else c :: rest
  | [] => []

/-- `normalizePathPattern` of `util.go`. -/
def normalizePathPattern (sep : Char) (p : String) : String :=
  if p == "" then ""
  else
    let norm := toSlash sep (trimSpace p)
    ⟨stripSlash (stripDotSlash norm.data)⟩

/-- `splitRef` of `util.go`: the pair `(branch, tag)`. -/
def splitRef (ref : String) : String × String :=
  if hasPrefix ref "refs/heads/" then (trimPrefix ref "refs/heads/", "")
  else if hasPrefix ref "refs/tags/" then ("", trimPrefix ref "refs/tags/")
  else (trimSpace ref, "")

/-! ## `matching.go` -/

/-- The filter record of `matching.go`. -/
structure eventConfig where
  Branches : List String
  BranchesIgnore : List String
  Paths : List String
  PathsIgnore : List String
  Tags : List String
  TagsIgnore : List String
  Types : List String
  deriving DecidableEq

/-- `pathMatchesAny` of `matching.go`. -/
def pathMatchesAny (sep : Char) (glob : GlobMatch) : List String → String → Bool
  | [], _ => false
  | pattern :: rest, path =>
    let normPattern := normalizePathPattern sep pattern
    if normPattern == "" then pathMatchesAny sep glob rest path
    else
      match glob normPattern path with
      | none => pathMatchesAny sep glob rest path
      | some true => true
      | some false => pathMatchesAny sep glob rest path

/-- The `for` loop of `matchesPatternList`. -/
def matchesPatternListLoop (glob : GlobMatch) : List String → String → Bool
  | [], _ => false
  | pattern :: rest, candidate =>
    let norm := trimSpace pattern
    if norm == "" then matchesPatternListLoop glob rest candidate
    else
      match glob norm candidate with
      | none => matchesPatternListLoop glob rest candidate
      | some true => true
      | some false => matchesPatternListLoop glob rest candidate

/-- `matchesPatternList` of `matching.go`. -/
def matchesPatternList (glob : GlobMatch) (patterns : List String) (candidate : String) : Bool :=
  if patterns.length == 0 then true
  else matchesPatternListLoop glob patterns candidate

/-- The candidate list built by `matchesBranchPatternList`. -/
def branchCandidates (branch : String) : List String :=
  if !hasPrefix branch "refs/heads/" && branch != "" then
    [branch, "refs/heads/" ++ branch]
  else [branch]

/-- `matchesBranchPatternList` of `matching.go`. -/
def matchesBranchPatternList (glob : GlobMatch) (patterns : List String) (branch : String) : Bool :=
  if patterns.length == 0 then true
  else (branchCandidates branch).any (fun candidate => matchesPatternList glob patterns candidate)

/-- `matchesEventTypes` of `matching.go`. -/
def matchesEventTypes (fold : FoldEq) (types : List String) (action : String) : Bool :=
  if types.length == 0 then true
  else if action == "" then false
  else types.any (fun t => fold (trimSpace t) action)

/-- `matchesBranchFilters` of `matching.go`. -/
def matchesBranchFilters (glob : GlobMatch) (includes excludes : List String) (branch : String) : Bool :=
  if includes.length == 0 && excludes.length == 0 then true
  else if branch == "" then false
  else if decide (includes.length > 0) && !matchesBranchPatternList glob includes branch then false
  else if decide (excludes.length > 0) && matchesBranchPatternList glob excludes branch then false
  else true

/-- `matchesPaths` of `matching.go`. -/
def matchesPaths (sep : Char) (glob : GlobMatch) (includes excludes files : List String) : Bool :=
  if includes.length == 0 && excludes.length == 0 then true
  else if decide (includes.length > 0) then
    files.any (fun file => pathMatchesAny sep glob includes file && !pathMatchesAny sep glob excludes file)
  else if files.length == 0 then true
  else files.any (fun file => !pathMatchesAny sep glob excludes file)

/-- `shouldTrigger` of `matching.go`. -/
def shouldTrigger (sep : Char) (glob : GlobMatch) (fold : FoldEq)
    (event : String) (cfg : eventConfig) (ctx : EventContext) (files : List String) : Bool :=
  if event == "pull_request" || event == "pull_request_target" || event == "merge_group" then
    if !matchesEventTypes fold cfg.Types ctx.Action then false
    else if !matchesBranchFilters glob cfg.Branches cfg.BranchesIgnore ctx.BaseRef then false
    else if !matchesPaths sep glob cfg.Paths cfg.PathsIgnore files then false
    else true
  else if event == "push" then
    let (branch, tag) := splitRef ctx.Ref
    let refPasses :=
      if tag != "" then
        if !matchesPatternList glob cfg.Tags tag then false
        else if decide (cfg.TagsIgnore.length > 0) && matchesPatternList glob cfg.TagsIgnore tag then false
        else true
      else
        if !matchesBranchFilters glob cfg.Branches cfg.BranchesIgnore branch then false
        else true
    if !refPasses then false
    else if !matchesPaths sep glob cfg.Paths cfg.PathsIgnore files then false
    else true
  else
    if cfg.Types.length == 0 then true
    else matchesEventTypes fold cfg.Types ctx.Action

/-! ## Raw declarations and their normalisation (`util.go`, `matching.go`) -/

/-- Signature of `strings.ToLower`. -/
abbrev LowerFn := String → String

/-- Go `strings.HasSuffix(s, suf)`. -/
def hasSuffix (s suf : String) : Bool :=
  suf.data.isSuffixOf s.data

/-- Go `strings.TrimSuffix(s, suf)`. -/
def trimSuffix (s suf : String) : String :=
  if hasSuffix s suf then ⟨s.data.take (s.data.length - suf.data.length)⟩ else s

/-- A dynamically typed value (`interface{}`) as the YAML decoder hands it to
the package: `nil`, a `string`, a `[]string`, a `[]interface{}`, a
`map[string]interface{}` whose entries are listed in the order in which a
`range` loop visits them, or a value of any other type, kept as the text
`fmt.Sprint` prints for it. -/
inductive Raw where
  | null : Raw
  | str : String → Raw
  | strs : List String → Raw
  | list : List Raw → Raw
  | map : List (String × Raw) → Raw
  | other : String → Raw

/-- The test `item == nil`. -/
def Raw.isNull : Raw → Bool
  | .null => true
  | _ => false

/-- Go `fmt.Sprint` of one value: a string prints as itself, a value of another
scalar type as its text; `fmtOther` stands for the rendering of `nil`, slices
and maps. -/
def sprint (fmtOther : Raw → String) : Raw → String
  | .str s => s
  | .other printed => printed
  | v => fmtOther v

/-- `asStringSlice` of `util.go`. -/
def asStringSlice (fmtOther : Raw → String) : Raw → List String
  | .null => []
  | .strs v => v
  | .list v => (v.filter (fun item => !item.isNull)).map (sprint fmtOther)
  | .str v => [trimSpace v]
  | v => [sprint fmtOther v]

/-- The record `eventConfig{}` with every list empty. -/
def emptyConfig : eventConfig := ⟨[], [], [], [], [], [], []⟩

/-- The body of the `range` loop of `parseEventConfig`: one mapping entry. -/
def parseEntry (lower : LowerFn) (fmtOther : Raw → String) (cfg : eventConfig)
    (entry : String × Raw) : eventConfig :=
  let k := lower entry.1
  if k == "branches" then { cfg with Branches := asStringSlice fmtOther entry.2 }
  else if k == "branches-ignore" then { cfg with BranchesIgnore := asStringSlice fmtOther entry.2 }
  else if k == "paths" then { cfg with Paths := asStringSlice fmtOther entry.2 }
  else if k == "paths-ignore" then { cfg with PathsIgnore := asStringSlice fmtOther entry.2 }
  else if k == "tags" then { cfg with Tags := asStringSlice fmtOther entry.2 }
  else if k == "tags-ignore" then { cfg with TagsIgnore := asStringSlice fmtOther entry.2 }
  else if k == "types" then { cfg with Types := asStringSlice fmtOther entry.2 }
  else cfg

/-- `parseEventConfig` of `matching.go`. -/
def parseEventConfig (lower : LowerFn) (fmtOther : Raw → String) : Raw → eventConfig
  | .null => emptyConfig
  | .map v => v.foldl (parseEntry lower fmtOther) emptyConfig
  | .list v => { emptyConfig with Types := asStringSlice fmtOther (.list v) }
  | .strs v => { emptyConfig with Types := emptyConfig.Types ++ v }
  | .str v => { emptyConfig with Types := [trimSpace v] }
  | .other _ => emptyConfig

/-- The loop of `normalizePaths`, with the set `seen` and the slice `out`. -/
def normalizePathsLoop (sep : Char) : List String → List String → List String → List String
  | [], _, out => out
  | file :: rest, seen, out =>
    let norm := normalizePathPattern sep file
    if norm == "" then normalizePathsLoop sep rest seen out
    else if seen.contains norm then normalizePathsLoop sep rest seen out
    else normalizePathsLoop sep rest (norm :: seen) (out ++ [norm])

/-- `normalizePaths` of `util.go`. -/
def normalizePaths (sep : Char) (files : List String) : List String :=
  normalizePathsLoop sep files [] []

/-- The list without its repeated elements, the first occurrence of each
element being the one that stays. -/
def keepFirstOccurrences : List String → List String
  | [] => []
  | x :: xs => x :: (keepFirstOccurrences xs).filter (fun y => y != x)

/-- White space neither at the start nor at the end of the string. -/
def outerSpaceFree (s : String) : Bool :=
  !(s.data.head?.any isSpace) && !(s.data.getLast?.any isSpace)

/-! ## Workflows and detection (`matching.go`, `detector.go`) -/

/-- What the package reads of a parsed workflow (`model.Workflow`): its name,
the event names `On()` returns and the raw declaration `OnEvent` returns. -/
structure Workflow where
  Name : String
  On : List String
  OnEvent : String → Raw

/-- The loop of `matchingEvents` over the declared events. -/
def matchingEventsLoop (sep : Char) (glob : GlobMatch) (fold : FoldEq) (lower : LowerFn)
    (fmtOther : Raw → String) (wf : Workflow) (eventCtx : EventContext)
    (modifiedFiles : List String) : List String → List String
  | [] => []
  | evt :: rest =>
    if evt != eventCtx.Name then
      matchingEventsLoop sep glob fold lower fmtOther wf eventCtx modifiedFiles rest
    else
      let config := parseEventConfig lower fmtOther (wf.OnEvent evt)
      if shouldTrigger sep glob fold evt config eventCtx modifiedFiles then
        evt :: matchingEventsLoop sep glob fold lower fmtOther wf eventCtx modifiedFiles rest
      else matchingEventsLoop sep glob fold lower fmtOther wf eventCtx modifiedFiles rest

/-- `matchingEvents` of `matching.go`. -/
def matchingEvents (sep : Char) (glob : GlobMatch) (fold : FoldEq) (lower : LowerFn)
    (fmtOther : Raw → String) (wf : Workflow) (eventCtx : EventContext)
    (modifiedFiles : List String) : List String :=
  matchingEventsLoop sep glob fold lower fmtOther wf eventCtx modifiedFiles wf.On

/-- `WorkflowMatch` of `detector.go`. -/
structure WorkflowMatch where
  Name : String
  Path : String
  Events : List String
  deriving DecidableEq

/-- `workflowDefinition` of `detector.go`; the content is a byte sequence. -/
structure workflowDefinition where
  Path : String
  Content : List Nat
  deriving DecidableEq

/-- `isWorkflowFile` of `detector.go`. -/
def isWorkflowFile (lower : LowerFn) (name : String) : Bool :=
  let low := lower name
  hasSuffix low ".yml" || hasSuffix low ".yaml"

/-- `workflowName` of `detector.go`. -/
def workflowName (workflow : Workflow) (fallback : String) : String :=
  if workflow.Name != "" then workflow.Name
  else trimSuffix (trimSuffix fallback ".yml") ".yaml"

/-- One regular file met by the directory walk of `loadWorkflowDefinitions`:
its base name `d.Name()`, its path relative to the repository root and its
content. -/
structure walkedFile where
  Name : String
  Rel : String
  Content : List Nat

/-- `loadWorkflowDefinitions` of `detector.go`.  The file system is replaced by
the outcome `walk` of the directory walk: an error, or the regular files met,
in the order of the walk (none when the directory is absent). -/
def loadWorkflowDefinitions (sep : Char) (lower : LowerFn)
    (walk : Except String (List walkedFile)) : Except String (List workflowDefinition) :=
  match walk with
  | .error e => .error e
  | .ok found =>
    .ok ((found.filter (fun f => isWorkflowFile lower f.Name)).map
      (fun f => ⟨toSlash sep f.Rel, f.Content⟩))

/-- The loop of `DetectTriggeredWorkflows` over the definitions; `readWorkflow`
is the YAML reader and `base` is `filepath.Base`. -/
def detectLoop (sep : Char) (glob : GlobMatch) (fold : FoldEq) (lower : LowerFn)
    (fmtOther : Raw → String) (base : String → String)
    (readWorkflow : List Nat → Except String Workflow)
    (eventCtx : EventContext) (normFiles : List String) :
    List workflowDefinition → List WorkflowMatch → Except String (List WorkflowMatch)
  | [], found => .ok found
  | d :: rest, found =>
    match readWorkflow d.Content with
    | .error e => .error ("parse workflow " ++ d.Path ++ ": " ++ e)
    | .ok workflow =>
      let events := matchingEvents sep glob fold lower fmtOther workflow eventCtx normFiles
      if events.length == 0 then
        detectLoop sep glob fold lower fmtOther base readWorkflow eventCtx normFiles rest found
      else
        detectLoop sep glob fold lower fmtOther base readWorkflow eventCtx normFiles rest
          (found ++ [⟨workflowName workflow (base d.Path), toSlash sep d.Path, events⟩])

/-- `DetectTriggeredWorkflows` of `detector.go`. -/
def DetectTriggeredWorkflows (sep : Char) (glob : GlobMatch) (fold : FoldEq) (lower : LowerFn)
    (fmtOther : Raw → String) (base : String → String)
    (readWorkflow : List Nat → Except String Workflow)
    (walk : Except String (List walkedFile))
    (eventCtx : EventContext) (modifiedFiles : List String) :
    Except String (List WorkflowMatch) :=
  if eventCtx.Name == "" then .error "event name is required"
  else
    match loadWorkflowDefinitions sep lower walk with
    | .error e => .error e
    | .ok defs =>
      let normFiles := normalizePaths sep modifiedFiles
      detectLoop sep glob fold lower fmtOther base readWorkflow eventCtx normFiles defs []

/-- The entry one iteration of the loop of `DetectTriggeredWorkflows` appends
for the definition `d`, if it appends one. -/
def matchEntry (sep : Char) (glob : GlobMatch) (fold : FoldEq) (lower : LowerFn)
    (fmtOther : Raw → String) (base : String → String)
    (readWorkflow : List Nat → Except String Workflow)
    (eventCtx : EventContext) (normFiles : List String) (d : workflowDefinition) :
    Option WorkflowMatch :=
  match readWorkflow d.Content with
  | .error _ => none
  | .ok workflow =>
    let events := matchingEvents sep glob fold lower fmtOther workflow eventCtx normFiles
    if events.length == 0 then none
    else some ⟨workflowName workflow (base d.Path), toSlash sep d.Path, events⟩

/-- Every string of every list of the record. -/
def eventConfig.allStrings (cfg : eventConfig) : List String :=
  cfg.Branches ++ cfg.BranchesIgnore ++ cfg.Paths ++ cfg.PathsIgnore ++ cfg.Tags ++
    cfg.TagsIgnore ++ cfg.Types

/-! ## The changed-file list parser (`cmd/action/main.go`) -/

/-- The pieces of a text between the characters that satisfy `p`, empty pieces
included; `cur` holds, reversed, the piece being read. -/
def splitAux (p : Char → Bool) : List Char → List Char → List (List Char)
  | [], cur => [cur.reverse]
  | c :: cs, cur =>
    if p c then cur.reverse :: splitAux p cs [] else splitAux p cs (c :: cur)

/-- Splitting at every character that satisfies `p`; with `p` the test for one
character `sep` this is Go `strings.Split(s, sep)`. -/
def splitWhere (p : Char → Bool) (s : List Char) : List (List Char) :=
  splitAux p s []

/-- Go `strings.FieldsFunc(s, p)`: the non-empty pieces between the characters
that satisfy `p`. -/
def fieldsFunc (p : Char → Bool) (s : List Char) : List (List Char) :=
  (splitWhere p s).filter (fun f => !f.isEmpty)

/-- `parseModifiedFiles` of `cmd/action/main.go`; `jsonUnmarshal` stands for
`json.Unmarshal([]byte(raw), &values)` with `values` a `[]string`. -/
def parseModifiedFiles (jsonUnmarshal : String → Except String (List String))
    (raw : String) : Except String (List String) :=
  let raw := trimSpace raw
  if raw == "" then .ok []
  else if hasPrefix raw "[" then
    match jsonUnmarshal raw with
    | .error err => .error err
    | .ok values => .ok values
  else
    .ok ((splitWhere (fun c => c == '\n') raw.data).flatMap (fun segment =>
      ((fieldsFunc (fun r => r == ',' || r == '\n') segment).map
        (fun f => trimSpace ⟨f⟩)).filter (fun trimmed => trimmed != "")))

/-- The segments of a text split at commas and newlines, each trimmed of white
space, the empty ones dropped. -/
def trimmedSegments (text : String) : List String :=
  ((splitWhere (fun c => c == ',' || c == '\n') text.data).map
    (fun seg => trimSpace ⟨seg⟩)).filter (fun s => s != "")

/-! ## Sample instances of the library parameters -/

/-- A small matcher used to evaluate the functions on concrete inputs.  It
rejects every pattern holding `[` (the examples use `[` and `a[b`, whose
character class is unclosed), lets a pattern `stem/**` match the stem and
every name beginning with `stem/`, and lets any other pattern match exactly
the name equal to it.  On the inputs used in this file these are the answers
of `doublestar.Match`; in particular a pattern without glob metacharacters
matches the name equal to it and no other, and the pattern `src/**` matches
the name `src` and the names that begin with `src/`, and no other. -/
def sampleGlob : GlobMatch := fun pattern name =>
  if pattern.data.contains '[' then none
  else if ['/', '*', '*'].isSuffixOf pattern.data then
    some ((pattern.data.take (pattern.data.length - 2)).isPrefixOf name.data
      || name.data == pattern.data.take (pattern.data.length - 3))
  else some (pattern == name)

/-- ASCII case folding; `strings.EqualFold` agrees with it on ASCII text. -/
def asciiFold : FoldEq := fun s t =>
  s.data.map Char.toLower == t.data.map Char.toLower

/-- ASCII lower-casing; `strings.ToLower` agrees with it on ASCII text. -/
def asciiLower : LowerFn := fun s => ⟨s.data.map Char.toLower⟩

/-- A rendering for `nil`, slices and maps; no example depends on it. -/
def sampleFmt : Raw → String := fun _ => "<nil>"

/-- The base name of a slash-separated relative path, as `filepath.Base` gives
it for a path that does not end in a separator. -/
def sampleBase : String → String := fun path =>
  ⟨(path.data.reverse.takeWhile (fun c => c != '/')).reverse⟩

/-- A JSON decoder for the examples: it decodes the text `[]` to the empty
list and rejects every other text; these are the answers of `json.Unmarshal`
on the texts used in this file. -/
def sampleJson : String → Except String (List String) := fun text =>
  if text == "[]" then .ok [] else .error "invalid character"

/-- A reader for the examples: the content `[1]` is the workflow
`pull-request-check` of the package tests, with `types`, `branches` and `paths`
filters on `pull_request`; any other content is a workflow `docs-check` that
declares `push` with a `paths` filter. -/
def sampleRead : List Nat → Except String Workflow := fun content =>
  .ok (if content = [1] then
      ⟨"pull-request-check", ["pull_request"], fun _ =>
        .map [("types", .list [.str "opened", .str "synchronize"]),
          ("branches", .list [.str "main"]), ("paths", .list [.str "src/**"])]⟩
    else ⟨"docs-check", ["push"], fun _ => .map [("paths", .list [.str "docs/**"])]⟩)

/-! ## General lemmas on the two list loops -/

theorem pathMatchesAny_iff (sep : Char) (glob : GlobMatch) (patterns : List String) (path : String) :
    pathMatchesAny sep glob patterns path = true ↔
      ∃ p ∈ patterns, normalizePathPattern sep p ≠ "" ∧
        glob (normalizePathPattern sep p) path = some true := by
  induction patterns with
  | nil => simp [pathMatchesAny]
  | cons pattern rest ih =>
    simp only [pathMatchesAny, List.mem_cons, exists_eq_or_imp]
    by_cases hn : normalizePathPattern sep pattern = ""
    · simp [hn, ih]
    · cases hg : glob (normalizePathPattern sep pattern) path with
      | none => simp [hn, ih]
      | some b => cases b <;> simp [hn, ih]

theorem matchesPatternListLoop_iff (glob : GlobMatch) (patterns : List String) (candidate : String) :
    matchesPatternListLoop glob patterns candidate = true ↔
      ∃ p ∈ patterns, trimSpace p ≠ "" ∧ glob (trimSpace p) candidate = some true := by
  induction patterns with
  | nil => simp [matchesPatternListLoop]
  | cons pattern rest ih =>
    simp only [matchesPatternListLoop, List.mem_cons, exists_eq_or_imp]
    by_cases hn : trimSpace pattern = ""
    · simp [hn, ih]
    · cases hg : glob (trimSpace pattern) candidate with
      | none => simp [hn, ih]
      | some b => cases b <;> simp [hn, ih]

theorem matchesPatternList_iff (glob : GlobMatch) (patterns : List String) (candidate : String) :
    matchesPatternList glob patterns candidate = true ↔
      patterns = [] ∨ ∃ p ∈ patterns, trimSpace p ≠ "" ∧ glob (trimSpace p) candidate = some true := by
  unfold matchesPatternList
  cases patterns with
  | nil => simp
  | cons a l => simp [matchesPatternListLoop_iff]

theorem matchesBranchPatternList_iff (glob : GlobMatch) (patterns : List String) (branch : String)
    (hne : patterns ≠ []) (hb : branch ≠ "") :
    matchesBranchPatternList glob patterns branch = true ↔
      (∃ p ∈ patterns, trimSpace p ≠ "" ∧ glob (trimSpace p) branch = some true) ∨
      (hasPrefix branch "refs/heads/" = false ∧
        ∃ p ∈ patterns, trimSpace p ≠ "" ∧
          glob (trimSpace p) ("refs/heads/" ++ branch) = some true) := by
  unfold matchesBranchPatternList branchCandidates
  cases patterns with
  | nil => exact absurd rfl hne
  | cons a l =>
    cases hp : hasPrefix branch "refs/heads/" <;>
      simp [hb, matchesPatternList_iff]

theorem splitRef_tag (t : String) : splitRef ("refs/tags/" ++ t) = ("", t) := by
  have h1 : hasPrefix ("refs/tags/" ++ t) "refs/heads/" = false := by
    simp [hasPrefix, String.data_append, List.isPrefixOf]
  have h2 : hasPrefix ("refs/tags/" ++ t) "refs/tags/" = true := by
    simp [hasPrefix, String.data_append, List.isPrefixOf]
  have h3 : trimPrefix ("refs/tags/" ++ t) "refs/tags/" = t := by
    simp [trimPrefix, h2, String.data_append]
  simp [splitRef, h1, h2, h3]

/-! ## The path check -/

/-- Claim C1: with a non-empty `paths` list the path check passes exactly when
some changed file matches the `paths` list and does not match the
`pathsIgnore` list, matching a list being `pathMatchesAny`; in particular it
fails on an empty changed-file list. -/
theorem matchesPaths_nonempty_includes (sep : Char) (glob : GlobMatch)
    (paths pathsIgnore files : List String) (hpaths : paths ≠ []) :
    (matchesPaths sep glob paths pathsIgnore files = true ↔
      ∃ file ∈ files, pathMatchesAny sep glob paths file = true ∧
        pathMatchesAny sep glob pathsIgnore file = false) ∧
    matchesPaths sep glob paths pathsIgnore [] = false := by
  cases paths with
  | nil => exact absurd rfl hpaths
  | cons a l => constructor <;> simp [matchesPaths]

theorem matchesPaths_nonempty_includes_witness :
    ["src/**"] ≠ [] ∧
    matchesPaths '/' sampleGlob ["src/**"] ["src/gen/**"] ["docs/a.md", "src/main.go"] = true ∧
    matchesPaths '/' sampleGlob ["src/**"] ["src/gen/**"] [] = false :=
  have h := matchesPaths_nonempty_includes '/' sampleGlob ["src/**"] ["src/gen/**"]
    ["docs/a.md", "src/main.go"] (by decide)
  ⟨by decide, h.1.mpr ⟨"src/main.go", by decide, by decide, by decide⟩, h.2⟩

/-- Claim C2: with an empty `paths` list and a non-empty `pathsIgnore` list the
path check passes exactly when the changed-file list is empty or some changed
file does not match the `pathsIgnore` list; so a non-empty change set of
ignored files only is rejected, a change set followed by a non-ignored file
passes, and the empty change set passes. -/
theorem matchesPaths_ignore_only (sep : Char) (glob : GlobMatch)
    (pathsIgnore files : List String) (hignore : pathsIgnore ≠ []) :
    (matchesPaths sep glob [] pathsIgnore files = true ↔
      files = [] ∨ ∃ file ∈ files, pathMatchesAny sep glob pathsIgnore file = false) ∧
    (files ≠ [] → (∀ file ∈ files, pathMatchesAny sep glob pathsIgnore file = true) →
      matchesPaths sep glob [] pathsIgnore files = false) ∧
    (∀ extra : String, pathMatchesAny sep glob pathsIgnore extra = false →
      matchesPaths sep glob [] pathsIgnore (files ++ [extra]) = true) ∧
    matchesPaths sep glob [] pathsIgnore [] = true := by
  cases pathsIgnore with
  | nil => exact absurd rfl hignore
  | cons a l =>
    refine ⟨?_, ?_, ?_, ?_⟩
    · cases files with
      | nil => simp [matchesPaths]
      | cons f fs => simp [matchesPaths]
    · intro hne hall
      cases files with
      | nil => exact absurd rfl hne
      | cons f fs =>
        have hf := hall f (List.mem_cons_self f fs)
        have hfs : ∀ x ∈ fs, pathMatchesAny sep glob (a :: l) x = true :=
          fun x hx => hall x (List.mem_cons_of_mem f hx)
        simp [matchesPaths, hf]
        exact hfs
    · intro extra hextra
      simp [matchesPaths, hextra]
    · simp [matchesPaths]

theorem matchesPaths_ignore_only_witness :
    ["docs/**"] ≠ [] ∧
    matchesPaths '/' sampleGlob [] ["docs/**"] ["docs/readme.md"] = false ∧
    matchesPaths '/' sampleGlob [] ["docs/**"] (["docs/readme.md"] ++ ["pkg/config.go"]) = true ∧
    matchesPaths '/' sampleGlob [] ["docs/**"] [] = true :=
  have h := matchesPaths_ignore_only '/' sampleGlob ["docs/**"] ["docs/readme.md"] (by decide)
  ⟨by decide, h.2.1 (by decide) (by decide), h.2.2.1 "pkg/config.go" (by decide), h.2.2.2⟩

/-! ## Malformed patterns and the empty pattern list -/

/-- Claim C9: a pattern the matcher rejects is skipped.  `pathMatchesAny`, and
`matchesPatternList` on a non-empty list, return true exactly when some pattern
of the list is, once normalised (respectively trimmed), non-empty, accepted by
the matcher and matching the candidate.  Hence a rejected pattern in front of a
matching one does not stop the list from matching, and a list of rejected
patterns only never matches. -/
theorem malformed_pattern_is_skipped (sep : Char) (glob : GlobMatch)
    (patterns : List String) (candidate : String) :
    (pathMatchesAny sep glob patterns candidate = true ↔
      ∃ p ∈ patterns, normalizePathPattern sep p ≠ "" ∧
        glob (normalizePathPattern sep p) candidate = some true) ∧
    (patterns ≠ [] →
      (matchesPatternList glob patterns candidate = true ↔
        ∃ p ∈ patterns, trimSpace p ≠ "" ∧ glob (trimSpace p) candidate = some true)) ∧
    (∀ bad good : String, glob (normalizePathPattern sep bad) candidate = none →
      normalizePathPattern sep good ≠ "" →
      glob (normalizePathPattern sep good) candidate = some true →
      pathMatchesAny sep glob (bad :: good :: patterns) candidate = true) ∧
    (∀ bad good : String, glob (trimSpace bad) candidate = none →
      trimSpace good ≠ "" → glob (trimSpace good) candidate = some true →
      matchesPatternList glob (bad :: good :: patterns) candidate = true) ∧
    ((∀ p ∈ patterns, glob (normalizePathPattern sep p) candidate = none) →
      pathMatchesAny sep glob patterns candidate = false) ∧
    (patterns ≠ [] → (∀ p ∈ patterns, glob (trimSpace p) candidate = none) →
      matchesPatternList glob patterns candidate = false) := by
  refine ⟨pathMatchesAny_iff sep glob patterns candidate, ?_, ?_, ?_, ?_, ?_⟩
  · intro hne
    rw [matchesPatternList_iff]
    simp [hne]
  · intro bad good _ hgood hmatch
    rw [pathMatchesAny_iff]
    exact ⟨good, by simp, hgood, hmatch⟩
  · intro bad good _ hgood hmatch
    rw [matchesPatternList_iff]
    exact Or.inr ⟨good, by simp, hgood, hmatch⟩
  · intro hall
    rw [Bool.eq_false_iff]
    intro h
    obtain ⟨p, hp, _, hm⟩ := (pathMatchesAny_iff sep glob patterns candidate).mp h
    rw [hall p hp] at hm
    exact Option.noConfusion hm
  · intro hne hall
    rw [Bool.eq_false_iff]
    intro h
    rcases (matchesPatternList_iff glob patterns candidate).mp h with hnil | ⟨p, hp, _, hm⟩
    · exact hne hnil
    · rw [hall p hp] at hm
      exact Option.noConfusion hm

theorem malformed_pattern_is_skipped_witness :
    pathMatchesAny '/' sampleGlob ("[" :: "./src/**" :: []) "src/main.go" = true ∧
    matchesPatternList sampleGlob ("[" :: " main " :: []) "main" = true ∧
    pathMatchesAny '/' sampleGlob ["[", "a[b"] "src/main.go" = false ∧
    matchesPatternList sampleGlob ["[", "a[b"] "main" = false :=
  ⟨(malformed_pattern_is_skipped '/' sampleGlob [] "src/main.go").2.2.1 "[" "./src/**"
      (by decide) (by decide) (by decide),
    (malformed_pattern_is_skipped '/' sampleGlob [] "main").2.2.2.1 "[" " main "
      (by decide) (by decide) (by decide),
    (malformed_pattern_is_skipped '/' sampleGlob ["[", "a[b"] "src/main.go").2.2.2.2.1
      (by decide),
    (malformed_pattern_is_skipped '/' sampleGlob ["[", "a[b"] "main").2.2.2.2.2
      (by decide) (by decide)⟩

/-- Claim C10, counterexample: on the empty pattern list `matchesPatternList`
answers true, not false. -/
theorem matchesPatternList_nil_not_false :
    ¬ (matchesPatternList sampleGlob [] "main" = false ∧
        pathMatchesAny '/' sampleGlob [] "main" = false) := by
  decide

/-- Claim C10, amended: on the empty pattern list `pathMatchesAny` returns
false, whereas `matchesPatternList` returns true, which is the unconstrained
default its callers rely on. -/
theorem empty_pattern_list (sep : Char) (glob : GlobMatch) (c : String) :
    pathMatchesAny sep glob [] c = false ∧ matchesPatternList glob [] c = true := by
  simp [pathMatchesAny, matchesPatternList]

/-! ## The branch check -/

/-- Claim C3, counterexample: for the branch name `refs/heads/main` and the
single include pattern `refs/heads/refs/heads/main`, the `refs/heads/`-prefixed
form of the branch name matches the pattern, so the claimed condition holds,
yet `matchesBranchFilters` returns false: the prefixed form is not tried for a
name that already begins with `refs/heads/`. -/
theorem matchesBranchFilters_prefixed_counterexample :
    matchesBranchFilters sampleGlob ["refs/heads/refs/heads/main"] [] "refs/heads/main" = false ∧
    ¬ (matchesBranchFilters sampleGlob ["refs/heads/refs/heads/main"] [] "refs/heads/main" = true ↔
      ((["refs/heads/refs/heads/main"] : List String) = [] ∧ ([] : List String) = []) ∨
      (("refs/heads/main" : String) ≠ "" ∧
        ((["refs/heads/refs/heads/main"] : List String) = [] ∨
          (∃ p ∈ ["refs/heads/refs/heads/main"], trimSpace p ≠ "" ∧
            sampleGlob (trimSpace p) "refs/heads/main" = some true) ∨
          (∃ p ∈ ["refs/heads/refs/heads/main"], trimSpace p ≠ "" ∧
            sampleGlob (trimSpace p) ("refs/heads/" ++ "refs/heads/main") = some true)) ∧
        (([] : List String) = [] ∨
          ((¬ ∃ p ∈ ([] : List String), trimSpace p ≠ "" ∧
            sampleGlob (trimSpace p) "refs/heads/main" = some true) ∧
          (¬ ∃ p ∈ ([] : List String), trimSpace p ≠ "" ∧
            sampleGlob (trimSpace p) ("refs/heads/" ++ "refs/heads/main") = some true))))) := by
  decide

/-- Claim C3, amended: `matchesBranchFilters` is true exactly when both lists
are empty, or else the branch name is non-empty, and `branches` is empty or
some pattern of it matches the branch name or, when the name does not already
begin with `refs/heads/`, its `refs/heads/`-prefixed form, and `branchesIgnore`
is empty or no pattern of it matches the branch name nor, when the name does
not already begin with `refs/heads/`, its prefixed form.  A pattern matches
when, trimmed, it is non-empty, accepted by the matcher and matching. -/
theorem matchesBranchFilters_iff (glob : GlobMatch) (branches branchesIgnore : List String)
    (branch : String) :
    matchesBranchFilters glob branches branchesIgnore branch = true ↔
      (branches = [] ∧ branchesIgnore = []) ∨
      (branch ≠ "" ∧
        (branches = [] ∨
          (∃ p ∈ branches, trimSpace p ≠ "" ∧ glob (trimSpace p) branch = some true) ∨
          (hasPrefix branch "refs/heads/" = false ∧
            ∃ p ∈ branches, trimSpace p ≠ "" ∧
              glob (trimSpace p) ("refs/heads/" ++ branch) = some true)) ∧
        (branchesIgnore = [] ∨
          ((¬ ∃ p ∈ branchesIgnore, trimSpace p ≠ "" ∧ glob (trimSpace p) branch = some true) ∧
          ¬ (hasPrefix branch "refs/heads/" = false ∧
            ∃ p ∈ branchesIgnore, trimSpace p ≠ "" ∧
              glob (trimSpace p) ("refs/heads/" ++ branch) = some true)))) := by
  by_cases hb : branch = ""
  · subst hb
    cases branches <;> cases branchesIgnore <;> simp [matchesBranchFilters]
  · cases branches with
    | nil =>
      cases branchesIgnore with
      | nil => simp [matchesBranchFilters]
      | cons e es =>
        have hE := matchesBranchPatternList_iff glob (e :: es) branch (by simp) hb
        simp only [matchesBranchFilters, List.length_nil, List.length_cons]
        simp only [hb, false_and, true_and, false_or, ne_eq, not_false_eq_true, true_or,
          reduceCtorEq, ← not_or, ← hE]
        cases matchesBranchPatternList glob (e :: es) branch <;> simp [hb]
    | cons i is =>
      have hI := matchesBranchPatternList_iff glob (i :: is) branch (by simp) hb
      cases branchesIgnore with
      | nil =>
        simp only [matchesBranchFilters, List.length_nil, List.length_cons]
        simp only [hb, false_and, true_and, false_or, ne_eq, not_false_eq_true, or_true, and_true,
          reduceCtorEq, ← hI]
        cases matchesBranchPatternList glob (i :: is) branch <;> simp [hb]
      | cons e es =>
        have hE := matchesBranchPatternList_iff glob (e :: es) branch (by simp) hb
        simp only [matchesBranchFilters, List.length_cons]
        simp only [hb, false_and, true_and, false_or, ne_eq, not_false_eq_true,
          reduceCtorEq, ← not_or, ← hE, ← hI]
        cases matchesBranchPatternList glob (i :: is) branch <;>
          cases matchesBranchPatternList glob (e :: es) branch <;> simp [hb]

/-! ## Push events on a tag ref -/

/-- Claim C4: for a push event whose ref is `refs/tags/` followed by a non-empty
tag `t`, `shouldTrigger` is true exactly when `tags` is empty or `t` matches
some pattern of `tags`, it is not the case that `tagsIgnore` is non-empty and
`t` matches some pattern of it, and the path check passes.  A pattern matches
when, trimmed, it is non-empty, accepted by the matcher and matching. -/
theorem shouldTrigger_push_tag (sep : Char) (glob : GlobMatch) (fold : FoldEq)
    (cfg : eventConfig) (ctx : EventContext) (files : List String) (t : String)
    (ht : t ≠ "") (href : ctx.Ref = "refs/tags/" ++ t) :
    shouldTrigger sep glob fold "push" cfg ctx files = true ↔
      (cfg.Tags = [] ∨
        ∃ p ∈ cfg.Tags, trimSpace p ≠ "" ∧ glob (trimSpace p) t = some true) ∧
      ¬ (cfg.TagsIgnore ≠ [] ∧
        ∃ p ∈ cfg.TagsIgnore, trimSpace p ≠ "" ∧ glob (trimSpace p) t = some true) ∧
      matchesPaths sep glob cfg.Paths cfg.PathsIgnore files = true := by
  have e1 : ("push" == "pull_request" || "push" == "pull_request_target" ||
      "push" == "merge_group") = false := by decide
  have e2 : ("push" == "push") = true := by decide
  have hT := matchesPatternList_iff glob cfg.Tags t
  have hI := matchesPatternList_iff glob cfg.TagsIgnore t
  unfold shouldTrigger
  rw [e1, href, splitRef_tag]
  simp only [e2, if_true, Bool.false_eq_true, if_false, bne_iff_ne, ne_eq, ht, not_false_eq_true]
  rw [← hT]
  cases hTags : matchesPatternList glob cfg.Tags t
  · simp
  · cases hign : cfg.TagsIgnore with
    | nil => simp
    | cons a l =>
      rw [hign] at hI
      have hI2 : matchesPatternList glob (a :: l) t = true ↔
          ∃ p ∈ a :: l, trimSpace p ≠ "" ∧ glob (trimSpace p) t = some true := by
        rw [hI]; simp
      rw [← hI2]
      cases matchesPatternList glob (a :: l) t <;>
        cases matchesPaths sep glob cfg.Paths cfg.PathsIgnore files <;> simp

theorem shouldTrigger_push_tag_witness :
    ("v1.2.3" : String) ≠ "" ∧
    shouldTrigger '/' sampleGlob asciiFold "push" ⟨["main"], [], [], [], ["v1.2.3"], [], []⟩
      ⟨"push", "", "refs/tags/v1.2.3", "", "", ""⟩ ["CHANGELOG.md"] = true :=
  ⟨by decide,
    (shouldTrigger_push_tag '/' sampleGlob asciiFold ⟨["main"], [], [], [], ["v1.2.3"], [], []⟩
      ⟨"push", "", "refs/tags/v1.2.3", "", "", ""⟩ ["CHANGELOG.md"] "v1.2.3"
      (by decide) (by decide)).mpr (by decide)⟩

/-- Claim C5, counterexample: the ref `refs/tags/` begins with `refs/tags/` but
carries an empty tag; `shouldTrigger` then runs the branch check on the empty
branch name, so two records that differ only in `branches` get different
decisions. -/
theorem tag_prefix_alone_counterexample :
    hasPrefix "refs/tags/" "refs/tags/" = true ∧
    shouldTrigger '/' sampleGlob asciiFold "push" ⟨[], [], [], [], [], [], []⟩
      ⟨"push", "", "refs/tags/", "", "", ""⟩ [] = true ∧
    shouldTrigger '/' sampleGlob asciiFold "push" ⟨["main"], [], [], [], [], [], []⟩
      ⟨"push", "", "refs/tags/", "", "", ""⟩ [] = false := by
  decide

/-- Claim C5, amended: for a push event whose ref is `refs/tags/` followed by a
non-empty tag, two filter records that agree on every list other than
`branches` and `branchesIgnore` get the same decision, whatever the changed
files are. -/
theorem tag_ref_bypasses_branch_filters (sep : Char) (glob : GlobMatch) (fold : FoldEq)
    (cfg cfg2 : eventConfig) (ctx : EventContext) (files : List String) (t : String)
    (ht : t ≠ "") (href : ctx.Ref = "refs/tags/" ++ t)
    (hPaths : cfg.Paths = cfg2.Paths) (hPathsIgnore : cfg.PathsIgnore = cfg2.PathsIgnore)
    (hTags : cfg.Tags = cfg2.Tags) (hTagsIgnore : cfg.TagsIgnore = cfg2.TagsIgnore)
    (hTypes : cfg.Types = cfg2.Types) :
    shouldTrigger sep glob fold "push" cfg ctx files =
      shouldTrigger sep glob fold "push" cfg2 ctx files := by
  have e1 : ("push" == "pull_request" || "push" == "pull_request_target" ||
      "push" == "merge_group") = false := by decide
  have e2 : ("push" == "push") = true := by decide
  unfold shouldTrigger
  rw [e1, href, splitRef_tag]
  simp only [e2, Bool.false_eq_true, if_false, bne_iff_ne, ne_eq, ht, not_false_eq_true, if_true,
    hPaths, hPathsIgnore, hTags, hTagsIgnore, hTypes]

theorem tag_ref_bypasses_branch_filters_witness :
    ("v1.2.3" : String) ≠ "" ∧
    shouldTrigger '/' sampleGlob asciiFold "push" ⟨["main"], ["dev"], [], [], ["v1.2.3"], [], []⟩
      ⟨"push", "", "refs/tags/v1.2.3", "", "", ""⟩ ["a.go"] =
    shouldTrigger '/' sampleGlob asciiFold "push" ⟨[], [], [], [], ["v1.2.3"], [], []⟩
      ⟨"push", "", "refs/tags/v1.2.3", "", "", ""⟩ ["a.go"] :=
  ⟨by decide,
    tag_ref_bypasses_branch_filters '/' sampleGlob asciiFold
      ⟨["main"], ["dev"], [], [], ["v1.2.3"], [], []⟩ ⟨[], [], [], [], ["v1.2.3"], [], []⟩
      ⟨"push", "", "refs/tags/v1.2.3", "", "", ""⟩ ["a.go"] "v1.2.3"
      (by decide) (by decide) rfl rfl rfl rfl rfl⟩

/-! ## The `types` gate -/

theorem matchesEventTypes_iff (fold : FoldEq) (types : List String) (action : String) :
    matchesEventTypes fold types action = true ↔
      types = [] ∨ (action ≠ "" ∧ ∃ t ∈ types, fold (trimSpace t) action = true) := by
  unfold matchesEventTypes
  cases types with
  | nil => simp
  | cons a l =>
    by_cases ha : action = ""
    · simp [ha]
    · simp [ha]

/-- Claim C6, counterexample: the listed type ` opened ` carries surrounding
blanks, so the action `opened` equals no listed type ignoring case, yet the
pull-request event fires: the listed type is trimmed before the comparison. -/
theorem types_gate_untrimmed_counterexample :
    ([" opened "] : List String) ≠ [] ∧
    (("opened" : String) = "" ∨ ∀ t ∈ [" opened "], asciiFold t "opened" = false) ∧
    shouldTrigger '/' sampleGlob asciiFold "pull_request" ⟨[], [], [], [], [], [], [" opened "]⟩
      ⟨"pull_request", "opened", "", "main", "", ""⟩ ["src/main.go"] = true := by
  decide

/-- Claim C6, amended: for the events `pull_request`, `pull_request_target` and
`merge_group`, a filter record with a non-empty `types` list and a context
whose action is empty or equals none of the listed types, each trimmed of
surrounding white space, when compared ignoring case, `shouldTrigger` is false
whatever the other filters, the refs and the changed files are. -/
theorem types_gate_rejects (sep : Char) (glob : GlobMatch) (fold : FoldEq) (event : String)
    (cfg : eventConfig) (ctx : EventContext) (files : List String)
    (hevent : event = "pull_request" ∨ event = "pull_request_target" ∨ event = "merge_group")
    (htypes : cfg.Types ≠ [])
    (haction : ctx.Action = "" ∨ ∀ t ∈ cfg.Types, fold (trimSpace t) ctx.Action = false) :
    shouldTrigger sep glob fold event cfg ctx files = false := by
  have hgate : matchesEventTypes fold cfg.Types ctx.Action = false := by
    rw [Bool.eq_false_iff]
    intro h
    rcases (matchesEventTypes_iff fold cfg.Types ctx.Action).mp h with hnil | ⟨hne, t, ht, hfold⟩
    · exact htypes hnil
    · rcases haction with hempty | hnone
      · exact hne hempty
      · rw [hnone t ht] at hfold
        exact Bool.noConfusion hfold
  have hfam : (event == "pull_request" || event == "pull_request_target" ||
      event == "merge_group") = true := by
    rcases hevent with h | h | h <;> subst h <;> decide
  unfold shouldTrigger
  simp [hfam, hgate]

theorem types_gate_rejects_witness :
    shouldTrigger '/' sampleGlob asciiFold "pull_request" ⟨["main"], [], [], [], [], [], ["closed"]⟩
      ⟨"pull_request", "opened", "", "main", "", ""⟩ ["src/main.go"] = false :=
  types_gate_rejects '/' sampleGlob asciiFold "pull_request"
    ⟨["main"], [], [], [], [], [], ["closed"]⟩ ⟨"pull_request", "opened", "", "main", "", ""⟩
    ["src/main.go"] (Or.inl rfl) (by decide) (Or.inr (by decide))

/-- Claim C7, counterexample: for the event `workflow_dispatch`, the listed type
` opened ` and the action `opened`, `shouldTrigger` is true although `types` is
non-empty and the action equals no listed type ignoring case. -/
theorem generic_event_untrimmed_counterexample :
    ¬ (shouldTrigger '/' sampleGlob asciiFold "workflow_dispatch"
        ⟨[], [], [], [], [], [], [" opened "]⟩
        ⟨"workflow_dispatch", "opened", "", "", "", ""⟩ [] = true ↔
      (([" opened "] : List String) = [] ∨
        (("opened" : String) ≠ "" ∧ ∃ t ∈ [" opened "], asciiFold t "opened" = true))) := by
  decide

/-- Claim C7, amended: for every event name other than `pull_request`,
`pull_request_target`, `merge_group` and `push`, `shouldTrigger` is true
exactly when `types` is empty or the action is non-empty and equals, ignoring
case, some listed type trimmed of surrounding white space; the decision is the
same for any other record with the same `types`, any other context with the
same action and any other changed files. -/
theorem generic_event_decision (sep : Char) (glob : GlobMatch) (fold : FoldEq) (event : String)
    (cfg : eventConfig) (ctx : EventContext) (files : List String)
    (h1 : event ≠ "pull_request") (h2 : event ≠ "pull_request_target")
    (h3 : event ≠ "merge_group") (h4 : event ≠ "push") :
    (shouldTrigger sep glob fold event cfg ctx files = true ↔
      cfg.Types = [] ∨
        (ctx.Action ≠ "" ∧ ∃ t ∈ cfg.Types, fold (trimSpace t) ctx.Action = true)) ∧
    (∀ (cfg2 : eventConfig) (ctx2 : EventContext) (files2 : List String),
      cfg2.Types = cfg.Types → ctx2.Action = ctx.Action →
      shouldTrigger sep glob fold event cfg2 ctx2 files2 =
        shouldTrigger sep glob fold event cfg ctx files) := by
  have hshape : ∀ (c : eventConfig) (x : EventContext) (fs : List String),
      shouldTrigger sep glob fold event c x fs = matchesEventTypes fold c.Types x.Action := by
    intro c x fs
    have hfam : (event == "pull_request" || event == "pull_request_target" ||
        event == "merge_group") = false := by simp [h1, h2, h3]
    have hpush : (event == "push") = false := by simp [h4]
    unfold shouldTrigger
    simp only [hfam, hpush, Bool.false_eq_true, if_false]
    unfold matchesEventTypes
    split <;> simp_all
  refine ⟨?_, ?_⟩
  · rw [hshape, matchesEventTypes_iff]
  · intro cfg2 ctx2 files2 hT hA
    rw [hshape, hshape, hT, hA]

theorem generic_event_decision_witness :
    shouldTrigger '/' sampleGlob asciiFold "workflow_dispatch"
      ⟨["main"], [], ["src/**"], [], [], [], ["Opened"]⟩
      ⟨"workflow_dispatch", "opened", "refs/heads/dev", "", "", ""⟩ ["docs/a.md"] = true :=
  ((generic_event_decision '/' sampleGlob asciiFold "workflow_dispatch"
      ⟨["main"], [], ["src/**"], [], [], [], ["Opened"]⟩
      ⟨"workflow_dispatch", "opened", "refs/heads/dev", "", "", ""⟩ ["docs/a.md"]
      (by decide) (by decide) (by decide) (by decide)).1).mpr
    (Or.inr ⟨by decide, "Opened", by decide, by decide⟩)

/-! ## The unconstrained record -/

/-- Claim C8: for every event name, context and changed-file list,
`shouldTrigger` is true on the filter record whose six pattern lists and
`types` list are all empty. -/
theorem unconstrained_record_triggers (sep : Char) (glob : GlobMatch) (fold : FoldEq)
    (event : String) (ctx : EventContext) (files : List String) :
    shouldTrigger sep glob fold event ⟨[], [], [], [], [], [], []⟩ ctx files = true := by
  unfold shouldTrigger
  simp only [matchesEventTypes, matchesBranchFilters, matchesPaths, matchesPatternList,
    List.length_nil]
  split
  · simp
  · split
    · rcases splitRef ctx.Ref with ⟨branch, tag⟩
      by_cases ht : tag = "" <;> simp [ht]
    · simp


/-! ## Lemmas on detection, path normalisation and the normaliser -/

theorem matchingEventsLoop_eq_filter (sep : Char) (glob : GlobMatch) (fold : FoldEq)
    (lower : LowerFn) (fmtOther : Raw → String) (wf : Workflow) (eventCtx : EventContext)
    (modifiedFiles : List String) (events : List String) :
    matchingEventsLoop sep glob fold lower fmtOther wf eventCtx modifiedFiles events =
      events.filter (fun evt => evt == eventCtx.Name &&
        shouldTrigger sep glob fold evt (parseEventConfig lower fmtOther (wf.OnEvent evt))
          eventCtx modifiedFiles) := by
  induction events with
  | nil => rfl
  | cons evt rest ih =>
    unfold matchingEventsLoop
    by_cases h : evt = eventCtx.Name
    · cases hs : shouldTrigger sep glob fold evt
          (parseEventConfig lower fmtOther (wf.OnEvent evt)) eventCtx modifiedFiles <;>
        simp [h, ih, List.filter_cons]
    · simp [h, ih, List.filter_cons]

theorem toSlash_idem (sep : Char) (s : String) : toSlash sep (toSlash sep s) = toSlash sep s := by
  unfold toSlash
  by_cases h : sep = '/'
  · simp [h]
  · simp only [beq_iff_eq, h, if_false, List.map_map]
    congr 1
    apply List.map_congr_left
    intro c _
    by_cases hc : c = sep
    · simp [hc, Ne.symm h]
    · simp [hc]

theorem detectLoop_ok (sep : Char) (glob : GlobMatch) (fold : FoldEq) (lower : LowerFn)
    (fmtOther : Raw → String) (base : String → String)
    (readWorkflow : List Nat → Except String Workflow)
    (eventCtx : EventContext) (normFiles : List String)
    (defs : List workflowDefinition) (found : List WorkflowMatch)
    (hparse : ∀ d ∈ defs, ∃ wf, readWorkflow d.Content = .ok wf) :
    detectLoop sep glob fold lower fmtOther base readWorkflow eventCtx normFiles defs found =
      .ok (found ++ defs.filterMap
        (matchEntry sep glob fold lower fmtOther base readWorkflow eventCtx normFiles)) := by
  induction defs generalizing found with
  | nil => simp [detectLoop]
  | cons d rest ih =>
    obtain ⟨wf, hwf⟩ := hparse d (List.mem_cons_self d rest)
    have hrest : ∀ x ∈ rest, ∃ wf, readWorkflow x.Content = .ok wf :=
      fun x hx => hparse x (List.mem_cons_of_mem d hx)
    unfold detectLoop
    simp only [hwf]
    by_cases hev : (matchingEvents sep glob fold lower fmtOther wf eventCtx normFiles).length = 0
    · simp [hev, ih _ hrest, List.filterMap_cons, matchEntry, hwf]
    · simp [hev, ih _ hrest, List.filterMap_cons, matchEntry, hwf]

theorem detectLoop_mem (sep : Char) (glob : GlobMatch) (fold : FoldEq) (lower : LowerFn)
    (fmtOther : Raw → String) (base : String → String)
    (readWorkflow : List Nat → Except String Workflow)
    (eventCtx : EventContext) (normFiles : List String)
    (defs : List workflowDefinition) (found result : List WorkflowMatch)
    (h : detectLoop sep glob fold lower fmtOther base readWorkflow eventCtx normFiles defs found =
      .ok result) :
    ∀ m ∈ result, m ∈ found ∨ ∃ d ∈ defs, ∃ wf, readWorkflow d.Content = .ok wf ∧
      m = ⟨workflowName wf (base d.Path), toSlash sep d.Path,
        matchingEvents sep glob fold lower fmtOther wf eventCtx normFiles⟩ ∧
      matchingEvents sep glob fold lower fmtOther wf eventCtx normFiles ≠ [] := by
  induction defs generalizing found with
  | nil =>
    simp only [detectLoop, Except.ok.injEq] at h
    subst h
    intro m hm
    exact Or.inl hm
  | cons d rest ih =>
    unfold detectLoop at h
    cases hwf : readWorkflow d.Content with
    | error e => simp [hwf] at h
    | ok wf =>
      simp only [hwf] at h
      by_cases hev : (matchingEvents sep glob fold lower fmtOther wf eventCtx normFiles).length = 0
      · simp only [hev, beq_self_eq_true, if_true] at h
        intro m hm
        rcases ih found h m hm with hf | ⟨x, hx, w, hw, hm2⟩
        · exact Or.inl hf
        · exact Or.inr ⟨x, List.mem_cons_of_mem d hx, w, hw, hm2⟩
      · have hne : ((matchingEvents sep glob fold lower fmtOther wf eventCtx normFiles).length == 0)
            = false := by simp [hev]
        simp only [hne, Bool.false_eq_true, if_false] at h
        intro m hm
        rcases ih _ h m hm with hf | ⟨x, hx, w, hw, hm2⟩
        · rcases List.mem_append.mp hf with hf1 | hf2
          · exact Or.inl hf1
          · refine Or.inr ⟨d, List.mem_cons_self d rest, wf, hwf, ?_, ?_⟩
            · simpa using hf2
            · intro hnil
              exact hev (by simp [hnil])
        · exact Or.inr ⟨x, List.mem_cons_of_mem d hx, w, hw, hm2⟩

theorem keepFirstOccurrences_subset (l : List String) :
    ∀ x ∈ keepFirstOccurrences l, x ∈ l := by
  induction l with
  | nil => simp [keepFirstOccurrences]
  | cons a l ih =>
    intro x hx
    simp only [keepFirstOccurrences, List.mem_cons, List.mem_filter] at hx
    rcases hx with h | h
    · exact h ▸ List.mem_cons_self a l
    · exact List.mem_cons_of_mem a (ih x h.1)

theorem keepFirstOccurrences_mem (l : List String) (x : String) :
    x ∈ keepFirstOccurrences l ↔ x ∈ l := by
  refine ⟨keepFirstOccurrences_subset l x, ?_⟩
  induction l with
  | nil => simp
  | cons a l ih =>
    intro hx
    simp only [keepFirstOccurrences, List.mem_cons, List.mem_filter, bne_iff_ne, ne_eq]
    by_cases hxa : x = a
    · exact Or.inl hxa
    · rcases List.mem_cons.mp hx with h | h
      · exact absurd h hxa
      · exact Or.inr ⟨ih h, hxa⟩

theorem keepFirstOccurrences_nodup (l : List String) : (keepFirstOccurrences l).Nodup := by
  induction l with
  | nil => simp [keepFirstOccurrences]
  | cons a l ih =>
    simp only [keepFirstOccurrences, List.nodup_cons, List.mem_filter]
    refine ⟨?_, ih.filter _⟩
    intro h
    simp at h

theorem normalizePathsLoop_eq (sep : Char) (files seen out : List String) :
    normalizePathsLoop sep files seen out =
      out ++ (keepFirstOccurrences
        ((files.map (normalizePathPattern sep)).filter (fun s => s != ""))).filter
          (fun y => !seen.contains y) := by
  induction files generalizing seen out with
  | nil => simp [normalizePathsLoop, keepFirstOccurrences]
  | cons file rest ih =>
    unfold normalizePathsLoop
    by_cases hn : normalizePathPattern sep file = ""
    · simp [hn, ih]
    · have hne : (normalizePathPattern sep file == "") = false := by simp [hn]
      by_cases hs : normalizePathPattern sep file ∈ seen
      · have hcs : seen.contains (normalizePathPattern sep file) = true := by simp [hs]
        simp only [hne, hcs, Bool.false_eq_true, if_false, if_true]
        rw [ih]
        congr 1
        simp only [List.map_cons, List.filter_cons, bne_iff_ne, ne_eq, hn, not_false_eq_true,
          decide_True, if_true, keepFirstOccurrences, hcs, Bool.not_true, Bool.false_eq_true,
          if_false, List.filter_filter]
        apply List.filter_congr
        intro y _
        by_cases hy : y ∈ seen
        · simp [hy]
        · have : y ≠ normalizePathPattern sep file := fun h => hy (h ▸ hs)
          simp [hy, this]
      · have hcs : seen.contains (normalizePathPattern sep file) = false := by simp [hs]
        simp only [hne, hcs, Bool.false_eq_true, if_false]
        rw [ih]
        simp only [List.map_cons, List.filter_cons, bne_iff_ne, ne_eq, hn, not_false_eq_true,
          decide_True, if_true, keepFirstOccurrences, hcs, Bool.not_false,
          List.filter_filter, List.append_assoc, List.singleton_append]
        congr 2
        apply List.filter_congr
        intro y _
        by_cases hy : y = normalizePathPattern sep file
        · simp [hy]
        · simp [hy]

theorem stripDotSlash_suffix (l : List Char) : stripDotSlash l <:+ l := by
  induction l using stripDotSlash.induct with
  | case1 c d rest h ih =>
    rw [stripDotSlash, if_pos h]
    exact (ih.trans (List.suffix_cons d rest)).trans (List.suffix_cons c (d :: rest))
  | case2 c d rest h =>
    rw [stripDotSlash, if_neg h]
  | case3 cs h =>
    unfold stripDotSlash
    split
    · exact absurd rfl (h _ _ _)
    · exact List.suffix_refl _

theorem stripSlash_suffix (l : List Char) : stripSlash l <:+ l := by
  induction l with
  | nil => simp [stripSlash]
  | cons c rest ih =>
    unfold stripSlash
    by_cases h : c = '/'
    · rw [if_pos h]; exact ih.trans (List.suffix_cons c rest)
    · rw [if_neg h]

theorem stripSlash_head (l : List Char) : ∀ c, (stripSlash l).head? = some c → c ≠ '/' := by
  induction l with
  | nil => simp [stripSlash]
  | cons a rest ih =>
    intro c hc
    unfold stripSlash at hc
    by_cases h : a = '/'
    · rw [if_pos h] at hc; exact ih c hc
    · rw [if_neg h] at hc
      simp only [List.head?_cons, Option.some.injEq] at hc
      exact hc ▸ h

theorem getLast_eq_of_suffix {l₁ l₂ : List Char} (h : l₁ <:+ l₂) (hne : l₁ ≠ []) :
    l₁.getLast? = l₂.getLast? := by
  obtain ⟨t, rfl⟩ := h
  rw [List.getLast?_append_of_ne_nil _ hne]

theorem trimRight_eq_rdropWhile (cs : List Char) : trimRight cs = cs.rdropWhile isSpace := rfl

theorem trimSpace_getLast (s : String) :
    ∀ c, (trimSpace s).data.getLast? = some c → isSpace c = false := by
  intro c hc
  unfold trimSpace at hc
  simp only [trimRight_eq_rdropWhile] at hc
  have hne : List.rdropWhile isSpace (List.dropWhile isSpace s.data) ≠ [] := by
    intro h; rw [h] at hc; simp at hc
  have := List.rdropWhile_last_not isSpace _ hne
  rw [List.getLast?_eq_getLast _ hne] at hc
  simp only [Option.some.injEq] at hc
  rw [hc] at this
  simpa using this

theorem trimSpace_head (s : String) :
    ∀ c, (trimSpace s).data.head? = some c → isSpace c = false := by
  intro c hc
  unfold trimSpace at hc
  simp only [trimRight_eq_rdropWhile] at hc
  obtain ⟨t, ht⟩ := List.rdropWhile_prefix isSpace (l := List.dropWhile isSpace s.data)
  cases hr : List.rdropWhile isSpace (List.dropWhile isSpace s.data) with
  | nil => rw [hr] at hc; simp at hc
  | cons a r =>
    rw [hr] at hc ht
    simp only [List.head?_cons, Option.some.injEq] at hc
    subst hc
    have hne : List.dropWhile isSpace s.data ≠ [] := by
      rw [← ht]; simp
    have := List.head_dropWhile_not isSpace s.data hne
    have hh : (List.dropWhile isSpace s.data).head hne = a := by
      simp [← ht]
    rw [hh] at this
    simpa using this

theorem outerSpaceFree_trimSpace (s : String) : outerSpaceFree (trimSpace s) = true := by
  unfold outerSpaceFree
  have h1 := trimSpace_head s
  have h2 := trimSpace_getLast s
  cases hh : (trimSpace s).data.head? with
  | none =>
    cases hl : (trimSpace s).data.getLast? with
    | none => simp
    | some b => simp [h2 b hl]
  | some a =>
    cases hl : (trimSpace s).data.getLast? with
    | none => simp [h1 a hh]
    | some b => simp [h1 a hh, h2 b hl]

theorem toSlash_getLast (sep : Char) (s : String)
    (h : ∀ c, s.data.getLast? = some c → isSpace c = false) :
    ∀ c, (toSlash sep s).data.getLast? = some c → isSpace c = false := by
  unfold toSlash
  by_cases hs : sep = '/'
  · simpa [hs] using h
  · intro c hc
    simp only [beq_iff_eq, hs, if_false, List.getLast?_map] at hc
    cases hl : s.data.getLast? with
    | none => rw [hl] at hc; simp at hc
    | some b =>
      rw [hl] at hc
      simp only [Option.map_some', Option.some.injEq] at hc
      by_cases hb : b = sep
      · simp only [hb, if_true] at hc
        rw [← hc]; decide
      · simp only [hb, if_false] at hc
        rw [← hc]; exact h b hl

theorem parseEntry_trimmed (lower : LowerFn) (fmtOther : Raw → String) (cfg : eventConfig)
    (entry : String × Raw)
    (hcfg : ∀ t ∈ cfg.allStrings, outerSpaceFree t = true)
    (hval : ∀ t ∈ asStringSlice fmtOther entry.2, outerSpaceFree t = true) :
    ∀ t ∈ (parseEntry lower fmtOther cfg entry).allStrings, outerSpaceFree t = true := by
  intro t ht
  unfold parseEntry at ht
  dsimp only at ht
  simp only [eventConfig.allStrings, List.mem_append] at hcfg
  split_ifs at ht <;>
    simp only [eventConfig.allStrings, List.mem_append] at ht <;>
    first
    | (rcases ht with ((((((h | h) | h) | h) | h) | h) | h)
       all_goals first
         | exact hval t h
         | exact hcfg t (by simp [h]))

theorem foldl_parseEntry_trimmed (lower : LowerFn) (fmtOther : Raw → String)
    (entries : List (String × Raw)) (cfg : eventConfig)
    (hcfg : ∀ t ∈ cfg.allStrings, outerSpaceFree t = true)
    (hval : ∀ e ∈ entries, ∀ t ∈ asStringSlice fmtOther e.2, outerSpaceFree t = true) :
    ∀ t ∈ (entries.foldl (parseEntry lower fmtOther) cfg).allStrings,
      outerSpaceFree t = true := by
  induction entries generalizing cfg with
  | nil => simpa using hcfg
  | cons e rest ih =>
    simp only [List.foldl_cons]
    apply ih
    · exact parseEntry_trimmed lower fmtOther cfg e hcfg (hval e (List.mem_cons_self e rest))
    · exact fun x hx => hval x (List.mem_cons_of_mem e hx)

theorem eventConfig_eq_of_fields (a b : eventConfig)
    (h1 : a.Branches = b.Branches) (h2 : a.BranchesIgnore = b.BranchesIgnore)
    (h3 : a.Paths = b.Paths) (h4 : a.PathsIgnore = b.PathsIgnore) (h5 : a.Tags = b.Tags)
    (h6 : a.TagsIgnore = b.TagsIgnore) (h7 : a.Types = b.Types) : a = b := by
  cases a; cases b; simp_all

theorem parseEntry_fields (lower : LowerFn) (fmtOther : Raw → String) (cfg : eventConfig)
    (e : String × Raw) :
    (parseEntry lower fmtOther cfg e).Branches =
      (if lower e.1 = "branches" then asStringSlice fmtOther e.2 else cfg.Branches) ∧
    (parseEntry lower fmtOther cfg e).BranchesIgnore =
      (if lower e.1 = "branches-ignore" then asStringSlice fmtOther e.2
        else cfg.BranchesIgnore) ∧
    (parseEntry lower fmtOther cfg e).Paths =
      (if lower e.1 = "paths" then asStringSlice fmtOther e.2 else cfg.Paths) ∧
    (parseEntry lower fmtOther cfg e).PathsIgnore =
      (if lower e.1 = "paths-ignore" then asStringSlice fmtOther e.2 else cfg.PathsIgnore) ∧
    (parseEntry lower fmtOther cfg e).Tags =
      (if lower e.1 = "tags" then asStringSlice fmtOther e.2 else cfg.Tags) ∧
    (parseEntry lower fmtOther cfg e).TagsIgnore =
      (if lower e.1 = "tags-ignore" then asStringSlice fmtOther e.2 else cfg.TagsIgnore) ∧
    (parseEntry lower fmtOther cfg e).Types =
      (if lower e.1 = "types" then asStringSlice fmtOther e.2 else cfg.Types) := by
  unfold parseEntry
  dsimp only
  generalize lower e.1 = k
  generalize asStringSlice fmtOther e.2 = v
  by_cases h1 : k = "branches"
  · subst h1; simp
  by_cases h2 : k = "branches-ignore"
  · subst h2; simp
  by_cases h3 : k = "paths"
  · subst h3; simp
  by_cases h4 : k = "paths-ignore"
  · subst h4; simp
  by_cases h5 : k = "tags"
  · subst h5; simp
  by_cases h6 : k = "tags-ignore"
  · subst h6; simp
  by_cases h7 : k = "types"
  · subst h7; simp
  simp [h1, h2, h3, h4, h5, h6, h7]

theorem parseEntry_comm (lower : LowerFn) (fmtOther : Raw → String) (cfg : eventConfig)
    (x y : String × Raw) (hxy : lower x.1 ≠ lower y.1) :
    parseEntry lower fmtOther (parseEntry lower fmtOther cfg x) y =
      parseEntry lower fmtOther (parseEntry lower fmtOther cfg y) x := by
  have fx := parseEntry_fields lower fmtOther cfg x
  have fy := parseEntry_fields lower fmtOther cfg y
  have fxy := parseEntry_fields lower fmtOther (parseEntry lower fmtOther cfg x) y
  have fyx := parseEntry_fields lower fmtOther (parseEntry lower fmtOther cfg y) x
  have aux : ∀ (name : String) (vx vy c : List String),
      (if lower y.1 = name then vy else (if lower x.1 = name then vx else c)) =
        (if lower x.1 = name then vx else (if lower y.1 = name then vy else c)) := by
    intro name vx vy c
    by_cases hx : lower x.1 = name
    · by_cases hy : lower y.1 = name
      · exact absurd (hx.trans hy.symm) hxy
      · simp [hx, hy]
    · simp [hx]
  apply eventConfig_eq_of_fields
  · rw [fxy.1, fyx.1, fx.1, fy.1]; exact aux _ _ _ _
  · rw [fxy.2.1, fyx.2.1, fx.2.1, fy.2.1]; exact aux _ _ _ _
  · rw [fxy.2.2.1, fyx.2.2.1, fx.2.2.1, fy.2.2.1]; exact aux _ _ _ _
  · rw [fxy.2.2.2.1, fyx.2.2.2.1, fx.2.2.2.1, fy.2.2.2.1]; exact aux _ _ _ _
  · rw [fxy.2.2.2.2.1, fyx.2.2.2.2.1, fx.2.2.2.2.1, fy.2.2.2.2.1]; exact aux _ _ _ _
  · rw [fxy.2.2.2.2.2.1, fyx.2.2.2.2.2.1, fx.2.2.2.2.2.1, fy.2.2.2.2.2.1]; exact aux _ _ _ _
  · rw [fxy.2.2.2.2.2.2, fyx.2.2.2.2.2.2, fx.2.2.2.2.2.2, fy.2.2.2.2.2.2]; exact aux _ _ _ _

/-- The order of visit does not matter for a mapping whose keys stay pairwise
distinct once lower-cased. -/
theorem parseEventConfig_perm (lower : LowerFn) (fmtOther : Raw → String)
    (entries₁ entries₂ : List (String × Raw)) (hperm : entries₁.Perm entries₂)
    (hkeys : (entries₁.map (fun e => lower e.1)).Nodup) :
    parseEventConfig lower fmtOther (.map entries₁) =
      parseEventConfig lower fmtOther (.map entries₂) := by
  unfold parseEventConfig
  apply List.Perm.foldl_eq' hperm
  intro x hx y hy z
  by_cases hxy : x = y
  · rw [hxy]
  · apply parseEntry_comm
    intro h
    exact hxy (List.inj_on_of_nodup_map hkeys hx hy h)

theorem normalizePathPattern_src (sep : Char) (hsep : sep = '/' ∨ sep = '\\') :
    normalizePathPattern sep "src/**" = "src/**" := by
  rcases hsep with h | h <;> subst h <;> decide

theorem pathMatchesAny_single (sep : Char) (glob : GlobMatch) (pattern path : String)
    (hnorm : normalizePathPattern sep pattern = pattern) (hne : pattern ≠ "") :
    pathMatchesAny sep glob [pattern] path = true ↔ glob pattern path = some true := by
  rw [pathMatchesAny_iff]
  simp [hnorm, hne]

/-! ## Event gating and the detection result -/

/-- Claim C11: every event name `matchingEvents` returns is a declared event of
the workflow and equals the event name of the context; a workflow that
declares no event equal to that name gets the empty list; and every entry of a
result of `DetectTriggeredWorkflows` stems from a loaded definition whose
workflow declares the event name of the context. -/
theorem event_gating (sep : Char) (glob : GlobMatch) (fold : FoldEq) (lower : LowerFn)
    (fmtOther : Raw → String) (base : String → String)
    (readWorkflow : List Nat → Except String Workflow)
    (eventCtx : EventContext) (modifiedFiles : List String) :
    (∀ wf : Workflow,
      (∀ e ∈ matchingEvents sep glob fold lower fmtOther wf eventCtx modifiedFiles,
        e ∈ wf.On ∧ e = eventCtx.Name) ∧
      ((∀ e ∈ wf.On, e ≠ eventCtx.Name) →
        matchingEvents sep glob fold lower fmtOther wf eventCtx modifiedFiles = [])) ∧
    (∀ (walk : Except String (List walkedFile)) (result : List WorkflowMatch),
      DetectTriggeredWorkflows sep glob fold lower fmtOther base readWorkflow walk eventCtx
        modifiedFiles = .ok result →
      ∀ m ∈ result, ∃ defs, loadWorkflowDefinitions sep lower walk = .ok defs ∧
        ∃ d ∈ defs, ∃ wf, readWorkflow d.Content = .ok wf ∧ m.Path = d.Path ∧
          eventCtx.Name ∈ wf.On) := by
  have hmem : ∀ (wf : Workflow) (files : List String),
      ∀ e ∈ matchingEvents sep glob fold lower fmtOther wf eventCtx files,
        e ∈ wf.On ∧ e = eventCtx.Name := by
    intro wf files e he
    unfold matchingEvents at he
    rw [matchingEventsLoop_eq_filter, List.mem_filter] at he
    refine ⟨he.1, ?_⟩
    have h2 := he.2
    simp only [Bool.and_eq_true, beq_iff_eq] at h2
    exact h2.1
  refine ⟨fun wf => ⟨hmem wf modifiedFiles, ?_⟩, ?_⟩
  · intro hnone
    rw [List.eq_nil_iff_forall_not_mem]
    intro e he
    exact hnone e (hmem wf modifiedFiles e he).1 (hmem wf modifiedFiles e he).2
  · intro walk result hres m hm
    unfold DetectTriggeredWorkflows at hres
    by_cases hn : eventCtx.Name = ""
    · simp [hn] at hres
    · simp only [beq_iff_eq, hn, if_false] at hres
      cases hload : loadWorkflowDefinitions sep lower walk with
      | error e => simp [hload] at hres
      | ok defs =>
        simp only [hload] at hres
        refine ⟨defs, rfl, ?_⟩
        rcases detectLoop_mem sep glob fold lower fmtOther base readWorkflow eventCtx _ defs []
          result hres m hm with hnil | ⟨d, hd, wf, hwf, hmeq, hne⟩
        · exact absurd hnil (List.not_mem_nil m)
        · refine ⟨d, hd, wf, hwf, ?_, ?_⟩
          · rw [hmeq]
            -- the loader stores slash-form paths
            unfold loadWorkflowDefinitions at hload
            cases walk with
            | error e => simp at hload
            | ok found =>
              simp only [Except.ok.injEq] at hload
              subst hload
              obtain ⟨f, _, hf⟩ := List.mem_map.mp hd
              subst hf
              exact toSlash_idem sep f.Rel
          · obtain ⟨e, he⟩ := List.exists_mem_of_ne_nil _ hne
            have := hmem wf _ e he
            rw [← this.2]
            exact this.1

/-- Claim C12: for a non-empty event name and loaded definitions that all
parse, `DetectTriggeredWorkflows` succeeds and its result lists, in the order
of the definitions, one entry for each definition whose matched-event list is
non-empty and none for the others; the entry of a definition carries the path
of the definition, its matched events and its workflow name. -/
theorem detect_result (sep : Char) (glob : GlobMatch) (fold : FoldEq) (lower : LowerFn)
    (fmtOther : Raw → String) (base : String → String)
    (readWorkflow : List Nat → Except String Workflow)
    (walk : Except String (List walkedFile)) (defs : List workflowDefinition)
    (eventCtx : EventContext) (modifiedFiles : List String)
    (hname : eventCtx.Name ≠ "")
    (hload : loadWorkflowDefinitions sep lower walk = .ok defs)
    (hparse : ∀ d ∈ defs, ∃ wf, readWorkflow d.Content = .ok wf) :
    DetectTriggeredWorkflows sep glob fold lower fmtOther base readWorkflow walk eventCtx
        modifiedFiles =
      .ok (defs.filterMap (matchEntry sep glob fold lower fmtOther base readWorkflow eventCtx
        (normalizePaths sep modifiedFiles))) ∧
    (∀ d ∈ defs, ∀ wf, readWorkflow d.Content = .ok wf →
      matchEntry sep glob fold lower fmtOther base readWorkflow eventCtx
          (normalizePaths sep modifiedFiles) d =
        if matchingEvents sep glob fold lower fmtOther wf eventCtx
            (normalizePaths sep modifiedFiles) = [] then none
        else some ⟨workflowName wf (base d.Path), d.Path,
          matchingEvents sep glob fold lower fmtOther wf eventCtx
            (normalizePaths sep modifiedFiles)⟩) := by
  constructor
  · unfold DetectTriggeredWorkflows
    simp only [beq_iff_eq, hname, if_false, hload]
    rw [detectLoop_ok _ _ _ _ _ _ _ _ _ _ _ hparse]
    simp
  · intro d hd wf hwf
    have hpath : toSlash sep d.Path = d.Path := by
      unfold loadWorkflowDefinitions at hload
      cases walk with
      | error e => simp at hload
      | ok found =>
        simp only [Except.ok.injEq] at hload
        subst hload
        obtain ⟨f, _, hf⟩ := List.mem_map.mp hd
        subst hf
        exact toSlash_idem sep f.Rel
    unfold matchEntry
    simp only [hwf, hpath]
    by_cases hev : matchingEvents sep glob fold lower fmtOther wf eventCtx
        (normalizePaths sep modifiedFiles) = []
    · simp [hev]
    · simp [hev]

theorem event_gating_witness :
    matchingEvents '/' sampleGlob asciiFold asciiLower sampleFmt
      ⟨"docs-check", ["push"], fun _ => .map [("paths", .list [.str "docs/**"])]⟩
      ⟨"pull_request", "opened", "", "main", "", ""⟩ ["docs/readme.md"] = [] :=
  ((event_gating '/' sampleGlob asciiFold asciiLower sampleFmt sampleBase sampleRead
      ⟨"pull_request", "opened", "", "main", "", ""⟩ ["docs/readme.md"]).1
    ⟨"docs-check", ["push"], fun _ => .map [("paths", .list [.str "docs/**"])]⟩).2 (by decide)

theorem detect_result_witness :
    DetectTriggeredWorkflows '/' sampleGlob asciiFold asciiLower sampleFmt sampleBase sampleRead
      (.ok [⟨"pr-check.yml", ".github/workflows/pr-check.yml", [1]⟩,
        ⟨"docs-check.yml", ".github/workflows/docs-check.yml", [2]⟩,
        ⟨"README.md", ".github/workflows/README.md", [3]⟩])
      ⟨"pull_request", "opened", "", "main", "", ""⟩ ["src/main.go"] =
    .ok [⟨"pull-request-check", ".github/workflows/pr-check.yml", ["pull_request"]⟩] :=
  (detect_result '/' sampleGlob asciiFold asciiLower sampleFmt sampleBase sampleRead
    (.ok [⟨"pr-check.yml", ".github/workflows/pr-check.yml", [1]⟩,
      ⟨"docs-check.yml", ".github/workflows/docs-check.yml", [2]⟩,
      ⟨"README.md", ".github/workflows/README.md", [3]⟩])
    [⟨".github/workflows/pr-check.yml", [1]⟩, ⟨".github/workflows/docs-check.yml", [2]⟩]
    ⟨"pull_request", "opened", "", "main", "", ""⟩ ["src/main.go"]
    (by decide) (by rfl) (fun d _ => ⟨_, rfl⟩)).1.trans (by rfl)

/-! ## Changed files and path normalisation -/

/-- Claim C13: `normalizePaths` returns the path-normalised forms of its
entries, those that normalise to the empty string dropped and the first
occurrence only of each value kept, in the order of first occurrence; the
returned list has no duplicate. -/
theorem normalizePaths_first_occurrences (sep : Char) (files : List String) :
    normalizePaths sep files =
      keepFirstOccurrences ((files.map (normalizePathPattern sep)).filter (fun s => s != "")) ∧
    (normalizePaths sep files).Nodup ∧
    (∀ x, x ∈ normalizePaths sep files ↔
      x ≠ "" ∧ ∃ f ∈ files, normalizePathPattern sep f = x) := by
  have heq : normalizePaths sep files =
      keepFirstOccurrences ((files.map (normalizePathPattern sep)).filter (fun s => s != "")) := by
    unfold normalizePaths
    rw [normalizePathsLoop_eq]
    simp
  refine ⟨heq, heq ▸ keepFirstOccurrences_nodup _, ?_⟩
  intro x
  rw [heq, keepFirstOccurrences_mem, List.mem_filter, List.mem_map]
  simp only [bne_iff_ne, ne_eq]
  exact ⟨fun h => ⟨h.2, h.1⟩, fun h => ⟨h.2, h.1⟩⟩

/-- Claim C14, failing input: `/./a` normalises to `./a`, which begins with
`./`, and `/ a` normalises to ` a`, which begins with white space: the leading
`./` segments are stripped before the leading `/` characters and neither the
`./` test nor the trimming is run again afterwards. -/
theorem normalizePathPattern_interleaved_prefixes :
    normalizePathPattern '/' "/./a" = "./a" ∧
    hasPrefix (normalizePathPattern '/' "/./a") "./" = true ∧
    normalizePathPattern '/' "/ a" = " a" ∧
    outerSpaceFree (normalizePathPattern '/' "/ a") = false := by
  decide

/-- What does hold of the path-normalised form of every string: it has no
trailing white space, it does not begin with `/`, and it is a suffix of the
trimmed and slash-converted string. -/
theorem normalizePathPattern_shape (sep : Char) (p : String) :
    (∀ c, (normalizePathPattern sep p).data.getLast? = some c → isSpace c = false) ∧
    hasPrefix (normalizePathPattern sep p) "/" = false ∧
    (normalizePathPattern sep p).data <:+ (toSlash sep (trimSpace p)).data := by
  unfold normalizePathPattern
  by_cases hp : p = ""
  · subst hp
    have he : (("" : String) == "") = true := by decide
    simp only [he, if_true]
    refine ⟨?_, ?_, ?_⟩
    · intro c hc; simp at hc
    · decide
    · exact List.nil_suffix
  · have hpe : (p == "") = false := by simp [hp]
    simp only [hpe, Bool.false_eq_true, if_false]
    have hsuf : stripSlash (stripDotSlash (toSlash sep (trimSpace p)).data) <:+
        (toSlash sep (trimSpace p)).data :=
      (stripSlash_suffix _).trans (stripDotSlash_suffix _)
    refine ⟨?_, ?_, hsuf⟩
    · intro c hc
      have hne : stripSlash (stripDotSlash (toSlash sep (trimSpace p)).data) ≠ [] := by
        intro h; rw [h] at hc; simp at hc
      rw [getLast_eq_of_suffix hsuf hne] at hc
      exact toSlash_getLast sep _ (trimSpace_getLast p) c hc
    · have hh := stripSlash_head (stripDotSlash (toSlash sep (trimSpace p)).data)
      unfold hasPrefix
      cases hl : stripSlash (stripDotSlash (toSlash sep (trimSpace p)).data) with
      | nil => decide
      | cons a r =>
        rw [hl] at hh
        have := hh a rfl
        simp [List.isPrefixOf, this]
        exact fun h => this h.symm

theorem isSpace_slashed (c : Char) :
    isSpace (if c = '\\' then '/' else c) = isSpace c := by
  by_cases h : c = '\\'
  · subst h; decide
  · rw [if_neg h]

theorem dropWhile_isSpace_map (l : List Char) :
    (l.map (fun c => if c = '\\' then '/' else c)).dropWhile isSpace =
      (l.dropWhile isSpace).map (fun c => if c = '\\' then '/' else c) := by
  induction l with
  | nil => rfl
  | cons a l ih =>
    simp only [List.map_cons, List.dropWhile_cons, isSpace_slashed]
    by_cases ha : isSpace a = true
    · simp only [ha, if_true, ih]
    · simp only [ha, Bool.false_eq_true, if_false, List.map_cons]

theorem trimSpace_slashed (l : List Char) :
    trimSpace ⟨l.map (fun c => if c = '\\' then '/' else c)⟩ =
      ⟨(trimSpace ⟨l⟩).data.map (fun c => if c = '\\' then '/' else c)⟩ := by
  unfold trimSpace trimRight
  simp only [dropWhile_isSpace_map, ← List.map_reverse]

theorem count_dropWhile_isSpace (l : List Char) :
    (l.dropWhile isSpace).count '\\' = l.count '\\' := by
  induction l with
  | nil => rfl
  | cons a l ih =>
    by_cases ha : isSpace a = true
    · have hne : a ≠ '\\' := by
        intro h; subst h; exact absurd ha (by decide)
      simp only [List.dropWhile_cons, ha, if_true, ih]
      rw [List.count_cons_of_ne hne.symm]
    · simp [List.dropWhile_cons, ha]

theorem count_trimSpace (s : String) : (trimSpace s).data.count '\\' = s.data.count '\\' := by
  unfold trimSpace trimRight
  simp only [List.count_reverse, count_dropWhile_isSpace]

theorem count_stripSlash (l : List Char) : (stripSlash l).count '\\' = l.count '\\' := by
  induction l with
  | nil => rfl
  | cons a l ih =>
    unfold stripSlash
    by_cases h : a = '/'
    · rw [if_pos h, ih, List.count_cons_of_ne (by rw [h]; decide)]
    · rw [if_neg h]

theorem count_stripDotSlash (l : List Char) : (stripDotSlash l).count '\\' = l.count '\\' := by
  induction l using stripDotSlash.induct with
  | case1 c d rest h ih =>
    rw [stripDotSlash, if_pos h, ih, List.count_cons_of_ne (by rw [h.1]; decide),
      List.count_cons_of_ne (by rw [h.2]; decide)]
  | case2 c d rest h =>
    rw [stripDotSlash, if_neg h]
  | case3 cs h =>
    unfold stripDotSlash
    split
    · exact absurd rfl (h _ _ _)
    · rfl

theorem normalizePathPattern_backslash_eq (p : String) :
    normalizePathPattern '\\' p =
      (if p == "" then ""
        else ⟨stripSlash (stripDotSlash
          ((trimSpace p).data.map (fun c => if c = '\\' then '/' else c)))⟩) := by
  unfold normalizePathPattern toSlash
  have : (('\\' : Char) == '/') = false := by decide
  simp [this]

/-- Claim C20, counterexample: where the path separator is `/`, the backslash
of `a\b` is kept. -/
theorem backslash_kept_counterexample :
    normalizePathPattern '/' "a\\b" = "a\\b" ∧
    '\\' ∈ (normalizePathPattern '/' "a\\b").data := by
  decide

/-- Claim C20, amended: on a platform whose path separator is the backslash,
the path-normalised form of every string holds no backslash: each backslash of
the trimmed string is replaced by a forward slash, and only then are the
leading `./` segments and the leading `/` characters stripped, so the result
is the one obtained, where the separator is `/`, from the string with its
backslashes already replaced.  Where the separator is `/` the backslashes are
kept, all of them. -/
theorem backslash_converted (p : String) :
    '\\' ∉ (normalizePathPattern '\\' p).data ∧
    normalizePathPattern '\\' p =
      (if p == "" then ""
        else ⟨stripSlash (stripDotSlash
          ((trimSpace p).data.map (fun c => if c = '\\' then '/' else c)))⟩) ∧
    normalizePathPattern '\\' p =
      normalizePathPattern '/' ⟨p.data.map (fun c => if c = '\\' then '/' else c)⟩ ∧
    (normalizePathPattern '/' p).data.count '\\' = p.data.count '\\' := by
  have heq := normalizePathPattern_backslash_eq p
  refine ⟨?_, heq, ?_, ?_⟩
  · rw [heq]
    by_cases hp : (p == "") = true
    · simp [hp]
    · simp only [hp, Bool.false_eq_true, if_false]
      intro hmem
      have hsub := ((stripSlash_suffix _).trans (stripDotSlash_suffix _)).subset hmem
      rw [List.mem_map] at hsub
      obtain ⟨c, _, hc⟩ := hsub
      by_cases h : c = '\\'
      · rw [if_pos h] at hc; exact absurd hc (by decide)
      · rw [if_neg h] at hc; exact h hc
  · rw [heq]
    unfold normalizePathPattern toSlash
    by_cases hp : p = ""
    · subst hp; decide
    · have hd : p.data ≠ [] := fun h => hp (String.ext h)
      have h1 : (p == "") = false := by simp [hp]
      have h2 : ((⟨p.data.map (fun c => if c = '\\' then '/' else c)⟩ : String) == "") = false := by
        rw [beq_eq_false_iff_ne]
        intro h
        have := congrArg String.data h
        simp at this
        exact hd this
      simp only [h1, h2, Bool.false_eq_true, if_false, beq_self_eq_true, if_true]
      rw [trimSpace_slashed]
  · unfold normalizePathPattern toSlash
    by_cases hp : p = ""
    · subst hp; decide
    · have h1 : (p == "") = false := by simp [hp]
      simp only [h1, Bool.false_eq_true, if_false, beq_self_eq_true, if_true, count_stripSlash,
        count_stripDotSlash, count_trimSpace]

/-! ## The normaliser -/

/-- Claim C15, counterexample: for the list holding the string ` opened ` and a
null, the `types` list is the single untrimmed string: the null gets no entry
and the string is not trimmed. -/
theorem list_declaration_counterexample :
    (parseEventConfig asciiLower sampleFmt (.list [.str " opened ", .null])).Types =
      [" opened "] ∧
    (parseEventConfig asciiLower sampleFmt (.list [.str " opened ", .null])).Types ≠
      [Raw.str " opened ", Raw.null].map (fun item => trimSpace (sprint sampleFmt item)) := by
  decide

/-- Claim C15, amended: for a raw value that is a list, `parseEventConfig`
returns a record whose six pattern lists are empty and whose `types` list
holds, in order, one entry per element that is not null, each being the
string form of the element as `fmt.Sprint` prints it, a string element being
kept as it is, untrimmed; a `[]string` value is copied as it is. -/
theorem parseEventConfig_list (lower : LowerFn) (fmtOther : Raw → String) :
    (∀ v : List Raw, parseEventConfig lower fmtOther (.list v) =
      ⟨[], [], [], [], [], [], (v.filter (fun item => !item.isNull)).map (sprint fmtOther)⟩) ∧
    (∀ v : List String, parseEventConfig lower fmtOther (.strs v) =
      ⟨[], [], [], [], [], [], v⟩) ∧
    (∀ s : String, sprint fmtOther (.str s) = s) := by
  refine ⟨fun v => rfl, fun v => ?_, fun s => rfl⟩
  simp [parseEventConfig, emptyConfig]

/-- Claim C16, counterexample: a blank scalar declaration yields a `types`
list holding the empty string, and a list value keeps its element ` main `
with the surrounding blanks. -/
theorem normalisation_invariant_counterexample :
    "" ∈ (parseEventConfig asciiLower sampleFmt (.str "  ")).allStrings ∧
    " main " ∈ (parseEventConfig asciiLower sampleFmt
      (.map [("branches", .list [.str " main "])])).allStrings ∧
    outerSpaceFree " main " = false := by
  decide

/-- Claim C16, amended: for a raw declaration value that is null, a scalar
string, or a mapping whose values are null or scalar strings, every string in
every list of the record returned by `parseEventConfig` has no leading or
trailing white space; a scalar string yields the single trimmed string, which
is empty when the scalar is blank. -/
theorem scalar_declarations_trimmed (lower : LowerFn) (fmtOther : Raw → String) (raw : Raw)
    (hraw : raw = .null ∨ (∃ s, raw = .str s) ∨
      ∃ entries, raw = .map entries ∧ ∀ e ∈ entries, e.2 = .null ∨ ∃ s, e.2 = .str s) :
    (∀ t ∈ (parseEventConfig lower fmtOther raw).allStrings, outerSpaceFree t = true) ∧
    (∀ s, raw = .str s → (parseEventConfig lower fmtOther raw).allStrings = [trimSpace s]) := by
  constructor
  · rcases hraw with h | ⟨s, h⟩ | ⟨entries, h, hvals⟩
    · subst h
      simp [parseEventConfig, emptyConfig, eventConfig.allStrings]
    · subst h
      simp [parseEventConfig, emptyConfig, eventConfig.allStrings, outerSpaceFree_trimSpace]
    · subst h
      unfold parseEventConfig
      apply foldl_parseEntry_trimmed
      · simp [emptyConfig, eventConfig.allStrings]
      · intro e he t ht
        rcases hvals e he with hn | ⟨s, hs⟩
        · rw [hn] at ht; simp [asStringSlice] at ht
        · rw [hs] at ht
          simp only [asStringSlice, List.mem_singleton] at ht
          rw [ht]; exact outerSpaceFree_trimSpace s
  · intro s hs
    subst hs
    simp [parseEventConfig, emptyConfig, eventConfig.allStrings]

theorem scalar_declarations_trimmed_witness :
    (parseEventConfig asciiLower sampleFmt
      (.map [("branches", .str " main "), ("Paths", .null)])).allStrings = ["main"] ∧
    outerSpaceFree "main" = true :=
  ⟨by decide,
    (scalar_declarations_trimmed asciiLower sampleFmt
      (.map [("branches", .str " main "), ("Paths", .null)])
      (Or.inr (Or.inr ⟨_, rfl, by
        intro e he
        simp only [List.mem_cons, List.mem_singleton, List.not_mem_nil, or_false] at he
        rcases he with h | h
        · exact Or.inr ⟨" main ", by rw [h]⟩
        · exact Or.inl (by rw [h])⟩))).1 "main" (by decide)⟩

/-- Claim C17, failing input: the mapping with the two distinct keys `branches`
and `Branches`, visited in its two possible orders, gives the record with
`branches = [dev]` when `branches` is visited first and the record with
`branches = [main]` when it is visited last, and `shouldTrigger` then decides
differently for a pull request on `main`. -/
theorem case_variant_keys_depend_on_order :
    (["branches", "Branches"] : List String).Nodup ∧
    List.Perm
      [("branches", Raw.list [.str "main"]), ("Branches", Raw.list [.str "dev"])]
      [("Branches", Raw.list [.str "dev"]), ("branches", Raw.list [.str "main"])] ∧
    parseEventConfig asciiLower sampleFmt
      (.map [("branches", .list [.str "main"]), ("Branches", .list [.str "dev"])]) =
        ⟨["dev"], [], [], [], [], [], []⟩ ∧
    parseEventConfig asciiLower sampleFmt
      (.map [("Branches", .list [.str "dev"]), ("branches", .list [.str "main"])]) =
        ⟨["main"], [], [], [], [], [], []⟩ ∧
    shouldTrigger '/' sampleGlob asciiFold "pull_request"
      (parseEventConfig asciiLower sampleFmt
        (.map [("branches", .list [.str "main"]), ("Branches", .list [.str "dev"])]))
      ⟨"pull_request", "opened", "", "main", "", ""⟩ [] = false ∧
    shouldTrigger '/' sampleGlob asciiFold "pull_request"
      (parseEventConfig asciiLower sampleFmt
        (.map [("Branches", .list [.str "dev"]), ("branches", .list [.str "main"])]))
      ⟨"pull_request", "opened", "", "main", "", ""⟩ [] = true :=
  ⟨by decide, List.Perm.swap _ _ _, by decide, by decide, by decide, by decide⟩

/-! ## Workflow names -/

/-- Claim C18, failing input: `isWorkflowFile` accepts the base names `CI.YML`
and `build.yaml.yml`; with no declared name `workflowName` returns `CI.YML`
with its extension still on, and `build` with more than the extension `.yml`
removed. -/
theorem workflowName_extension_failing_input :
    isWorkflowFile asciiLower "CI.YML" = true ∧
    workflowName ⟨"", [], fun _ => .null⟩ "CI.YML" = "CI.YML" ∧
    isWorkflowFile asciiLower "build.yaml.yml" = true ∧
    workflowName ⟨"", [], fun _ => .null⟩ "build.yaml.yml" = "build" := by
  decide

/-! ## The path filter `src/**` -/

theorem sampleGlob_src (f : String) :
    sampleGlob "src/**" f = some (hasPrefix f "src/" || f.data == ['s', 'r', 'c']) := by
  rfl

theorem sampleGlob_src_iff (f : String) :
    sampleGlob "src/**" f = some true ↔ (f = "src" ∨ hasPrefix f "src/" = true) := by
  rw [sampleGlob_src]
  simp only [Option.some.injEq, Bool.or_eq_true, beq_iff_eq]
  constructor
  · rintro (h | h)
    · exact Or.inr h
    · exact Or.inl (String.ext h)
  · rintro (h | h)
    · exact Or.inr (by rw [h])
    · exact Or.inl h

theorem shouldTrigger_paths_only (sep : Char) (glob : GlobMatch) (fold : FoldEq)
    (ctx : EventContext) (files : List String) (hsep : sep = '/' ∨ sep = '\\') :
    shouldTrigger sep glob fold "pull_request" ⟨[], [], ["src/**"], [], [], [], []⟩ ctx files
      = true ↔ ∃ f ∈ files, glob "src/**" f = some true := by
  have hnorm := normalizePathPattern_src sep hsep
  have hfam : ("pull_request" == "pull_request" || "pull_request" == "pull_request_target" ||
      "pull_request" == "merge_group") = true := by decide
  have hshape : shouldTrigger sep glob fold "pull_request" ⟨[], [], ["src/**"], [], [], [], []⟩
      ctx files = matchesPaths sep glob ["src/**"] [] files := by
    unfold shouldTrigger
    simp only [hfam, if_true]
    simp [matchesEventTypes, matchesBranchFilters]
  have hnil : ∀ f, pathMatchesAny sep glob [] f = false := fun f => rfl
  have h1 : matchesPaths sep glob ["src/**"] [] files = true ↔
      ∃ f ∈ files, pathMatchesAny sep glob ["src/**"] f = true := by
    unfold matchesPaths
    simp [hnil]
  rw [hshape, h1]
  constructor
  · rintro ⟨f, hf, hm⟩
    exact ⟨f, hf, (pathMatchesAny_single sep glob "src/**" f hnorm (by decide)).mp hm⟩
  · rintro ⟨f, hf, hp⟩
    exact ⟨f, hf, (pathMatchesAny_single sep glob "src/**" f hnorm (by decide)).mpr hp⟩

/-- Claim C19, counterexample: the changed file `src` does not begin with
`src/`, yet the glob `src/**` matches it and the pull-request event fires. -/
theorem bare_src_counterexample :
    normalizePaths '/' ["src"] = ["src"] ∧
    hasPrefix "src" "src/" = false ∧
    shouldTrigger '/' sampleGlob asciiFold "pull_request" ⟨[], [], ["src/**"], [], [], [], []⟩
      ⟨"pull_request", "opened", "", "main", "", ""⟩ ["src"] = true := by
  decide

/-- Claim C19, amended: for a pull-request event and the record whose only
non-empty list is `paths = ["src/**"]`, `shouldTrigger` is true exactly when
the glob `src/**` matches some changed file, whatever the matcher is; with the
matching of `src/**` (the file `src` itself and every file that begins with
`src/`, the glob `**` matching any run of characters, `/` included) it is true
exactly when some changed file is `src` or begins with `src/`, and changed
files that all begin with `docs/` yield false. -/
theorem paths_src_tree (sep : Char) (glob : GlobMatch) (fold : FoldEq)
    (ctx : EventContext) (files : List String) (hsep : sep = '/' ∨ sep = '\\') :
    (shouldTrigger sep glob fold "pull_request" ⟨[], [], ["src/**"], [], [], [], []⟩ ctx files
        = true ↔ ∃ f ∈ files, glob "src/**" f = some true) ∧
    (shouldTrigger sep sampleGlob fold "pull_request" ⟨[], [], ["src/**"], [], [], [], []⟩ ctx
        files = true ↔ ∃ f ∈ files, f = "src" ∨ hasPrefix f "src/" = true) ∧
    ((∀ f ∈ files, hasPrefix f "docs/" = true) →
      shouldTrigger sep sampleGlob fold "pull_request" ⟨[], [], ["src/**"], [], [], [], []⟩ ctx
        files = false) := by
  have hiff : shouldTrigger sep sampleGlob fold "pull_request"
      ⟨[], [], ["src/**"], [], [], [], []⟩ ctx files = true ↔
      ∃ f ∈ files, f = "src" ∨ hasPrefix f "src/" = true := by
    rw [shouldTrigger_paths_only sep sampleGlob fold ctx files hsep]
    constructor
    · rintro ⟨f, hf, hm⟩
      exact ⟨f, hf, (sampleGlob_src_iff f).mp hm⟩
    · rintro ⟨f, hf, hm⟩
      exact ⟨f, hf, (sampleGlob_src_iff f).mpr hm⟩
  refine ⟨shouldTrigger_paths_only sep glob fold ctx files hsep, hiff, ?_⟩
  intro hdocs
  rw [Bool.eq_false_iff]
  intro h
  obtain ⟨f, hf, hsrc⟩ := hiff.mp h
  have hd := hdocs f hf
  have e2 : ("docs/" : String).data = ['d', 'o', 'c', 's', '/'] := rfl
  unfold hasPrefix at hd
  rw [e2] at hd
  rcases hsrc with hsrc | hsrc
  · rw [hsrc] at hd
    exact absurd hd (by decide)
  · unfold hasPrefix at hsrc
    have e1 : ("src/" : String).data = ['s', 'r', 'c', '/'] := rfl
    rw [e1] at hsrc
    cases hdata : f.data with
    | nil => rw [hdata] at hsrc; simp [List.isPrefixOf] at hsrc
    | cons c cs =>
      rw [hdata] at hsrc hd
      simp only [List.isPrefixOf, Bool.and_eq_true, beq_iff_eq] at hsrc hd
      exact absurd (hsrc.1.trans hd.1.symm) (by decide)

theorem paths_src_tree_witness :
    shouldTrigger '/' sampleGlob asciiFold "pull_request" ⟨[], [], ["src/**"], [], [], [], []⟩
      ⟨"pull_request", "opened", "", "main", "", ""⟩ ["docs/readme.md", "src/main.go"] = true ∧
    shouldTrigger '/' sampleGlob asciiFold "pull_request" ⟨[], [], ["src/**"], [], [], [], []⟩
      ⟨"pull_request", "opened", "", "main", "", ""⟩ ["docs/readme.md"] = false :=
  ⟨(paths_src_tree '/' sampleGlob asciiFold ⟨"pull_request", "opened", "", "main", "", ""⟩
      ["docs/readme.md", "src/main.go"] (Or.inl rfl)).2.1.mpr
      ⟨"src/main.go", by decide, Or.inr (by decide)⟩,
    (paths_src_tree '/' sampleGlob asciiFold ⟨"pull_request", "opened", "", "main", "", ""⟩
      ["docs/readme.md"] (Or.inl rfl)).2.2 (by decide)⟩

/-! ## Lemmas on splitting and trimming -/

theorem trimSpace_nil : trimSpace ⟨[]⟩ = "" := by decide

theorem trimSpace_lead (ws x : List Char) (hws : ∀ c ∈ ws, isSpace c = true) :
    trimSpace ⟨ws ++ x⟩ = trimSpace ⟨x⟩ := by
  unfold trimSpace
  congr 2
  induction ws with
  | nil => rfl
  | cons a ws ih =>
    have ha := hws a (List.mem_cons_self a ws)
    simp only [List.cons_append, List.dropWhile_cons, ha, if_true]
    exact ih (fun c hc => hws c (List.mem_cons_of_mem a hc))

theorem trimSpace_trail (x : List Char) (c : Char) (hc : isSpace c = true) :
    trimSpace ⟨x ++ [c]⟩ = trimSpace ⟨x⟩ := by
  unfold trimSpace
  congr 1
  simp only [trimRight_eq_rdropWhile, List.dropWhile_append]
  by_cases he : (List.dropWhile isSpace x).isEmpty = true
  · simp only [he, if_true]
    have : List.dropWhile isSpace x = [] := by simpa using he
    simp [this, List.dropWhile_cons, hc, List.rdropWhile]
  · simp only [he, Bool.false_eq_true, if_false]
    exact List.rdropWhile_concat_pos isSpace _ c hc

/-- The trimmed, non-empty members of a list of pieces. -/
theorem keptSegments_cons (x : List Char) (L : List (List Char)) :
    ((x :: L).map (fun seg => trimSpace ⟨seg⟩)).filter (fun s => s != "") =
      (if trimSpace ⟨x⟩ = "" then [] else [trimSpace ⟨x⟩]) ++
        (L.map (fun seg => trimSpace ⟨seg⟩)).filter (fun s => s != "") := by
  by_cases h : trimSpace ⟨x⟩ = "" <;> simp [List.filter_cons, h]

theorem splitAux_acc_space (p : Char → Bool) (l cur ws : List Char)
    (hws : ∀ c ∈ ws, isSpace c = true) :
    ((splitAux p l (cur ++ ws)).map (fun seg => trimSpace ⟨seg⟩)).filter (fun s => s != "") =
      ((splitAux p l cur).map (fun seg => trimSpace ⟨seg⟩)).filter (fun s => s != "") := by
  have hrev : ∀ c ∈ ws.reverse, isSpace c = true := fun c hc => hws c (List.mem_reverse.mp hc)
  induction l generalizing cur with
  | nil =>
    simp only [splitAux, List.reverse_append, List.map_cons, List.map_nil]
    rw [trimSpace_lead _ _ hrev]
  | cons a l ih =>
    unfold splitAux
    by_cases hp : p a = true
    · simp only [hp, if_true, keptSegments_cons, List.reverse_append]
      rw [trimSpace_lead _ _ hrev]
    · simp only [hp, Bool.false_eq_true, if_false]
      exact ih (a :: cur)

theorem splitAux_trail (p : Char → Bool) (l cur : List Char) (c : Char)
    (hc : isSpace c = true) :
    ((splitAux p (l ++ [c]) cur).map (fun seg => trimSpace ⟨seg⟩)).filter (fun s => s != "") =
      ((splitAux p l cur).map (fun seg => trimSpace ⟨seg⟩)).filter (fun s => s != "") := by
  induction l generalizing cur with
  | nil =>
    simp only [List.nil_append, splitAux]
    by_cases hp : p c = true
    · simp only [hp, if_true, keptSegments_cons, List.reverse_nil, trimSpace_nil]
      simp
    · simp only [hp, Bool.false_eq_true, if_false, List.reverse_cons]
      simp only [List.map_cons, List.map_nil]
      rw [trimSpace_trail _ _ hc]
  | cons a l ih =>
    simp only [List.cons_append]
    unfold splitAux
    by_cases hp : p a = true
    · simp only [hp, if_true, keptSegments_cons]
      rw [ih []]
    · simp only [hp, Bool.false_eq_true, if_false]
      exact ih (a :: cur)

theorem keptSegments_dropWhile (p : Char → Bool) (l : List Char) :
    ((splitWhere p (l.dropWhile isSpace)).map (fun seg => trimSpace ⟨seg⟩)).filter
        (fun s => s != "") =
      ((splitWhere p l).map (fun seg => trimSpace ⟨seg⟩)).filter (fun s => s != "") := by
  induction l with
  | nil => rfl
  | cons a l ih =>
    by_cases ha : isSpace a = true
    · simp only [List.dropWhile_cons, ha, if_true]
      rw [ih]
      unfold splitWhere
      rw [splitAux]
      by_cases hp : p a = true
      · simp only [hp, if_true, keptSegments_cons, List.reverse_nil, trimSpace_nil]
        simp
      · simp only [hp, Bool.false_eq_true, if_false]
        have := splitAux_acc_space p l [] [a] (by simpa using ha)
        simpa using this.symm
    · simp [List.dropWhile_cons, ha]

theorem keptSegments_rdropWhile (p : Char → Bool) (l : List Char) :
    ((splitWhere p (l.rdropWhile isSpace)).map (fun seg => trimSpace ⟨seg⟩)).filter
        (fun s => s != "") =
      ((splitWhere p l).map (fun seg => trimSpace ⟨seg⟩)).filter (fun s => s != "") := by
  induction l using List.reverseRecOn with
  | nil => rfl
  | append_singleton l a ih =>
    by_cases ha : isSpace a = true
    · rw [List.rdropWhile_concat_pos isSpace l a ha, ih]
      unfold splitWhere
      exact (splitAux_trail p l [] a ha).symm
    · rw [List.rdropWhile_concat_neg isSpace l a ha]

theorem trimmedSegments_trimSpace (raw : String) :
    trimmedSegments (trimSpace raw) = trimmedSegments raw := by
  have h : (trimSpace raw).data = (raw.data.dropWhile isSpace).rdropWhile isSpace := rfl
  unfold trimmedSegments
  rw [h, keptSegments_rdropWhile, keptSegments_dropWhile]

theorem splitAux_cons (p : Char → Bool) (c : Char) (cs cur : List Char) :
    splitAux p (c :: cs) cur =
      if p c then cur.reverse :: splitAux p cs [] else splitAux p cs (c :: cur) := by
  rw [splitAux]

theorem splitAux_append_delim (p : Char → Bool) (x l acc : List Char) (a : Char)
    (ha : p a = true) :
    splitAux p (x ++ a :: l) acc = (splitAux p x acc) ++ splitAux p l [] := by
  induction x generalizing acc with
  | nil => simp [splitAux, ha]
  | cons b x ih =>
    simp only [List.cons_append, splitAux_cons]
    by_cases hb : p b = true
    · simp only [hb, if_true, List.cons_append, ih]
    · simp only [hb, Bool.false_eq_true, if_false, ih]

theorem splitAux_flatMap (q p : Char → Bool) (hqp : ∀ c, q c = true → p c = true)
    (l cur : List Char) :
    (splitAux q l cur).flatMap (fun seg => splitAux p seg []) =
      splitAux p (cur.reverse ++ l) [] := by
  induction l generalizing cur with
  | nil => simp [splitAux]
  | cons a l ih =>
    rw [splitAux_cons]
    by_cases hq : q a = true
    · simp only [hq, if_true, List.flatMap_cons, ih [], List.reverse_nil, List.nil_append]
      rw [splitAux_append_delim p cur.reverse l [] a (hqp a hq)]
    · simp only [hq, Bool.false_eq_true, if_false]
      rw [ih (a :: cur)]
      simp

theorem keptSegments_fieldsFunc (p : Char → Bool) (seg : List Char) :
    ((fieldsFunc p seg).map (fun f => trimSpace ⟨f⟩)).filter (fun s => s != "") =
      ((splitWhere p seg).map (fun f => trimSpace ⟨f⟩)).filter (fun s => s != "") := by
  unfold fieldsFunc
  induction splitWhere p seg with
  | nil => rfl
  | cons x L ih =>
    cases x with
    | nil =>
      simp only [List.filter_cons, List.isEmpty_nil, Bool.not_true, Bool.false_eq_true, if_false,
        ih, List.map_cons, trimSpace_nil]
      simp
    | cons c cs =>
      simp only [List.filter_cons, List.isEmpty_cons, Bool.not_false, if_true, List.map_cons]
      split <;> simp [ih]

/-! ## The changed-file list parser -/

/-- Claim C21, counterexample: the text `[id]/page.tsx,src/a.go` is a
comma-delimited list of two paths and not a JSON array; since it begins with
`[` it is handed to the JSON decoder, whose error `parseModifiedFiles`
returns. -/
theorem bracket_prefix_counterexample :
    parseModifiedFiles sampleJson "[id]/page.tsx,src/a.go" = .error "invalid character" ∧
    trimmedSegments "[id]/page.tsx,src/a.go" = ["[id]/page.tsx", "src/a.go"] :=
  ⟨rfl, by decide⟩

/-- Claim C21, amended: for every input text that, trimmed of white space,
does not begin with `[`, `parseModifiedFiles` succeeds and returns, in their
original order, the segments obtained by splitting the text at commas and
newlines, each trimmed of white space, the empty ones dropped; an empty or
all-white-space input gives the empty list. -/
theorem parseModifiedFiles_delimited (jsonUnmarshal : String → Except String (List String))
    (raw : String) (hbracket : hasPrefix (trimSpace raw) "[" = false) :
    parseModifiedFiles jsonUnmarshal raw = .ok (trimmedSegments raw) ∧
    (trimSpace raw = "" → parseModifiedFiles jsonUnmarshal raw = .ok []) := by
  have hempty : trimSpace raw = "" → parseModifiedFiles jsonUnmarshal raw = .ok [] := by
    intro h
    unfold parseModifiedFiles
    simp [h]
  refine ⟨?_, hempty⟩
  rw [← trimmedSegments_trimSpace]
  by_cases h : trimSpace raw = ""
  · rw [hempty h, h]
    rfl
  · unfold parseModifiedFiles
    have hne : (trimSpace raw == "") = false := by simp [h]
    simp only [hne, hbracket, Bool.false_eq_true, if_false]
    congr 1
    unfold trimmedSegments
    simp only [keptSegments_fieldsFunc]
    unfold splitWhere
    have hsplit := splitAux_flatMap (fun c => c == '\n') (fun c => c == ',' || c == '\n')
      (fun c hc => by simp only [Bool.or_eq_true]; exact Or.inr hc) (trimSpace raw).data []
    simp only [List.reverse_nil, List.nil_append] at hsplit
    rw [← hsplit]
    simp only [List.map_flatMap, List.filter_flatMap]

theorem parseModifiedFiles_delimited_witness :
    parseModifiedFiles sampleJson " src/a.go, docs/b.md\n\npkg/c.go ,\r\n" =
      .ok ["src/a.go", "docs/b.md", "pkg/c.go"] :=
  ((parseModifiedFiles_delimited sampleJson " src/a.go, docs/b.md\n\npkg/c.go ,\r\n"
    (by decide)).1).trans (congrArg Except.ok (by decide))

/-! ## The path check and the set of changed files -/

/-- Claim C22: for every `paths` list and `pathsIgnore` list, `matchesPaths`
returns the same result on two changed-file lists that have the same
elements, whatever the order and the repetitions. -/
theorem matchesPaths_same_elements (sep : Char) (glob : GlobMatch)
    (paths pathsIgnore files₁ files₂ : List String)
    (hsame : ∀ f, f ∈ files₁ ↔ f ∈ files₂) :
    matchesPaths sep glob paths pathsIgnore files₁ =
      matchesPaths sep glob paths pathsIgnore files₂ := by
  have hany : ∀ g : String → Bool, files₁.any g = files₂.any g := by
    intro g
    rw [Bool.eq_iff_iff, List.any_eq_true, List.any_eq_true]
    exact ⟨fun ⟨x, hx, hg⟩ => ⟨x, (hsame x).mp hx, hg⟩,
      fun ⟨x, hx, hg⟩ => ⟨x, (hsame x).mpr hx, hg⟩⟩
  have hlen : (files₁.length == 0) = (files₂.length == 0) := by
    cases files₁ with
    | nil =>
      cases files₂ with
      | nil => rfl
      | cons b l => exact absurd ((hsame b).mpr (List.mem_cons_self b l)) (List.not_mem_nil b)
    | cons a l =>
      cases files₂ with
      | nil => exact absurd ((hsame a).mp (List.mem_cons_self a l)) (List.not_mem_nil a)
      | cons b l2 => rfl
  unfold matchesPaths
  rw [hany, hany, hlen]

theorem matchesPaths_same_elements_witness :
    matchesPaths '/' sampleGlob [] ["docs/**"] ["docs/a.md", "src/b.go", "docs/a.md"] =
      matchesPaths '/' sampleGlob [] ["docs/**"] ["src/b.go", "docs/a.md"] :=
  matchesPaths_same_elements '/' sampleGlob [] ["docs/**"]
    ["docs/a.md", "src/b.go", "docs/a.md"] ["src/b.go", "docs/a.md"]
    (by intro f; simp only [List.mem_cons, List.mem_singleton, List.not_mem_nil, or_false]; tauto)

end Detector
